import Mathlib

/-!
# ThreadPool (cpp_thread_pool/main.cpp): a shallow embedding

The pool is embedded as a labelled transition system.  One step is one of

* a whole call of `ThreadPool::enqueue` (lines 72-95),
* one step of one worker thread of the loop of lines 39-54,
* one step of the destructor `ThreadPool::~ThreadPool` (lines 59-69).

Every access to `tasks` and `stop` in the source happens inside a
`std::unique_lock<std::mutex> lock(queue_mutex)` block, so each such block is one
atomic step here.  A thread blocked in `condition.wait` may wake at any time
(the C++ standard allows spurious wake-ups), so a waiting worker can always take
its next step; `notify_one` / `notify_all` therefore change no field of the state.

`std::packaged_task` and `std::future` are library types: a packaged task is a
cell holding the bound callable and a shared state that is written once by
`operator()`; a second invocation throws `std::future_error`.  Destroying a
packaged task whose shared state is not ready stores the `broken_promise`
error in it; the shared state itself lives on with the future.

The destructor of the class destroys the members after its body: the member
`tasks` (line 28) is destroyed with every wrapper still queued, and each
wrapper is the only owner of its packaged task.

The field `log` is a history variable: it records the dequeue / start / finish
events of the workers in the order in which they happen and is read by no step.
-/

namespace ThreadPool

/-! ## Work items, packaged tasks, futures -/

/-- The outcome stored in the shared state of a `std::packaged_task`. -/
inductive Outcome where
  /-- the value the callable returned -/
  | value (v : Nat)
  /-- the exception the callable threw -/
  | failure (e : Nat)
  /-- the `std::future_error` (`broken_promise`) stored when the packaged task
  is destroyed before it was invoked -/
  | brokenPromise
  deriving DecidableEq, Repr

/-- The bound callable `std::bind(f, args...)` of line 79: a parameterless
computation that either returns a value or throws. -/
inductive Work where
  | returns (v : Nat)
  | throws (e : Nat)
  deriving DecidableEq, Repr

/-- What running the callable inside `packaged_task::operator()` produces: the
returned value, or the exception it threw, caught by the packaged task. -/
def Work.outcome (f : Work) : Outcome :=
  match f with
  | .returns v => .value v
  | .throws e => .failure e

/-- The object built by `std::make_shared<std::packaged_task<return_type()>>`
(line 78): the callable and the shared state (`none` while not ready). -/
structure PackagedTask where
  fn : Work
  state : Option Outcome
  deriving DecidableEq, Repr

/-- An error of `std::packaged_task::operator()` itself. -/
inductive FutureError where
  | promiseAlreadySatisfied
  deriving DecidableEq, Repr

/-- The call `(*task)()` of line 89: runs the callable and stores its outcome
(value or exception) in the shared state; throws when the shared state has
already been written. -/
def PackagedTask.invoke (p : PackagedTask) : Except FutureError PackagedTask :=
  match p.state with
  | some _ => .error .promiseAlreadySatisfied
  | none => .ok { p with state := some p.fn.outcome }

/-- The destructor of `std::packaged_task`: abandons the shared state; a shared
state that is not ready is made ready with the `broken_promise` error, a
ready one is left as it is. -/
def PackagedTask.abandon (p : PackagedTask) : PackagedTask :=
  match p.state with
  | some _ => p
  | none => { p with state := some .brokenPromise }

/-- The `std::future` returned by `task->get_future()` (line 81): a reference to
the shared state of packaged task number `task`. -/
structure Future where
  task : Nat
  deriving DecidableEq, Repr

/-! ## Pool state -/

/-- Program counter of one worker thread (the lambda of lines 38-55). -/
inductive WorkerPc where
  /-- at `for (;;)`, about to take the lock (line 42) -/
  | top
  /-- blocked inside `condition.wait`, lock released (line 44) -/
  | waiting
  /-- after the critical section: the task has been moved out and popped,
  `task()` not yet called (between lines 52 and 53) -/
  | holding (t : Nat)
  /-- inside the call `task()` (line 53) -/
  | running (t : Nat)
  /-- returned from the thread function (line 48) -/
  | exited
  deriving DecidableEq, Repr

/-- Program counter of the thread running `~ThreadPool`. -/
inductive DtorPc where
  /-- the destructor has not taken the lock yet -/
  | notStarted
  /-- `stop = true` is done and the lock released (after line 63) -/
  | stopSet
  /-- after `notify_all`, in the join loop, about to join worker `i` -/
  | joining (i : Nat)
  /-- the destructor has returned -/
  | returned
  deriving DecidableEq, Repr

/-- A way in which the program leaves defined behaviour. -/
inductive Fault where
  /-- `tasks.front()` / `tasks.pop()` on an empty queue -/
  | emptyFront
  /-- `task()` threw out of the thread function (`std::terminate`) -/
  | uncaught
  /-- a queued wrapper refers to no packaged task -/
  | dangling
  deriving DecidableEq, Repr

/-- History events of the workers. -/
inductive Event where
  | dequeue (w t : Nat)
  | start (w t : Nat)
  | finish (w t : Nat)
  /-- the wrapper of task `t` was destroyed in the queue, never run -/
  | abandon (t : Nat)
  deriving DecidableEq, Repr

/-- The state of a `ThreadPool` object together with the packaged tasks its
queue entries point to. -/
structure Pool where
  /-- `bool stop` -/
  stop : Bool
  /-- `std::queue<std::function<void()>> tasks`: each wrapper
  `[task]{(*task)();}` is the number of the packaged task it captured; the
  front of the queue is the head of the list -/
  tasks : List Nat
  /-- `std::vector<std::thread> workers`, as the program counters of the threads -/
  workers : List WorkerPc
  /-- the packaged tasks alive, in order of creation -/
  ptasks : List PackagedTask
  dtor : DtorPc
  fault : Option Fault
  log : List Event
  deriving DecidableEq, Repr

/-- The state after `ThreadPool::ThreadPool(threads)`: `stop(false)`, an empty
queue and `threads` workers at the top of their loop. -/
def init (threads : Nat) : Pool :=
  { stop := false, tasks := [], workers := List.replicate threads .top,
    ptasks := [], dtor := .notStarted, fault := none, log := [] }

/-! ## `enqueue` -/

/-- The message of the `std::runtime_error` thrown on line 87. -/
def stoppedMsg : String := "enqueue on stopped ThreadPool"

/-- `ThreadPool::enqueue` (lines 72-95).  The result is what the caller gets
(the future, or the exception) and the state after the call. -/
def enqueue (s : Pool) (f : Work) : Except String Future × Pool :=
  -- line 78: auto task = std::make_shared<std::packaged_task<return_type()>>(...)
  let task := s.ptasks.length
  let s1 : Pool := { s with ptasks := s.ptasks ++ [{ fn := f, state := none }] }
  -- line 81: std::future<return_type> res = task->get_future();
  let res : Future := { task := task }
  -- lines 84-89, under the lock
  if s1.stop then
    -- line 87: throw; unwinding destroys `res` and `task`, the only owners of
    -- the packaged task
    (.error stoppedMsg, { s1 with ptasks := s1.ptasks.dropLast })
  else
    -- line 89: tasks.emplace([task]{(*task)();}); lines 92-93
    (.ok res, { s1 with tasks := s1.tasks ++ [task] })

/-! ## The worker loop -/

/-- The predicate of `condition.wait` (line 45). -/
def waitPredicate (stop : Bool) (tasks : List Nat) : Bool :=
  stop || !tasks.isEmpty

/-- The test of line 48. -/
def exitTest (stop : Bool) (tasks : List Nat) : Bool :=
  stop && tasks.isEmpty

/-- What a worker does with the lock held. -/
inductive Decision where
  /-- the wait predicate is false: block in `condition.wait` -/
  | rewait
  /-- `return` on line 48 -/
  | exit
  /-- the front item was moved out and popped: run it -/
  | run (t : Nat)
  deriving DecidableEq, Repr

/-- The critical section of the worker (lines 42-52) on the observed `stop`
and `tasks`: the decision and the queue it leaves.  `tasks.front()` and
`tasks.pop()` are partial: `none` is the read of an empty queue. -/
def workerCheck (stop : Bool) (tasks : List Nat) : Option (Decision × List Nat) :=
  if waitPredicate stop tasks then
    if exitTest stop tasks then
      some (.exit, tasks)
    else
      match tasks.head? with
      | none => none
      | some t => some (.run t, tasks.tail)
  else
    some (.rewait, tasks)

/-- One step of worker `i`. -/
def workerStep (s : Pool) (i : Nat) : Option Pool :=
  match s.workers[i]? with
  | none => none
  | some .exited => none
  | some (.holding t) =>
    -- line 53: the call task() begins
    some { s with workers := s.workers.set i (.running t),
                  log := s.log ++ [.start i t] }
  | some (.running t) =>
    -- line 53: the wrapper runs (*task)() and returns; back to for (;;)
    match s.ptasks[t]? with
    | none => some { s with fault := some .dangling }
    | some p =>
      match p.invoke with
      | .error _ => some { s with fault := some .uncaught }
      | .ok p' =>
        some { s with ptasks := s.ptasks.set t p',
                      workers := s.workers.set i .top,
                      log := s.log ++ [.finish i t] }
  | some _ =>
    -- `top` or `waiting`: lines 42-52
    match workerCheck s.stop s.tasks with
    | none => some { s with fault := some .emptyFront }
    | some (.rewait, q) => some { s with tasks := q, workers := s.workers.set i .waiting }
    | some (.exit, q) => some { s with tasks := q, workers := s.workers.set i .exited }
    | some (.run t, q) =>
      some { s with tasks := q, workers := s.workers.set i (.holding t),
                    log := s.log ++ [.dequeue i t] }

/-! ## The destructor -/

/-- Destroying the queued wrapper of task `t`: the wrapper owns the packaged
task, which is destroyed with it. -/
def destroyWrapper (ps : List PackagedTask) (t : Nat) : List PackagedTask :=
  match ps[t]? with
  | none => ps
  | some p => ps.set t p.abandon

/-- Destroying the member `tasks`: every wrapper still queued is destroyed,
front first. -/
def destroyQueue (q : List Nat) (ps : List PackagedTask) : List PackagedTask :=
  q.foldl destroyWrapper ps

/-- One step of `~ThreadPool` (lines 59-69).  `join` on a worker that has not
exited blocks: the step is not enabled.  When the join loop is over the body
ends and the members are destroyed: the queue `tasks` with every wrapper still
in it. -/
def dtorStep (s : Pool) : Option Pool :=
  match s.dtor with
  | .notStarted => some { s with stop := true, dtor := .stopSet }
  | .stopSet => some { s with dtor := .joining 0 }
  | .joining i =>
    match s.workers[i]? with
    | none =>
      some { s with dtor := .returned, tasks := [],
                    ptasks := destroyQueue s.tasks s.ptasks,
                    log := s.log ++ s.tasks.map .abandon }
    | some .exited => some { s with dtor := .joining (i + 1) }
    | some _ => none
  | .returned => none

/-! ## The step relation -/

/-- Labels of the steps. -/
inductive Action where
  | enqueue (f : Work)
  | worker (i : Nat)
  | dtor
  deriving DecidableEq, Repr

/-- One step of the pool.  `none`: the step is not enabled.  After a fault the
program has no further steps. -/
def step (s : Pool) (a : Action) : Option Pool :=
  if s.fault.isSome then none
  else
    match a with
    | .enqueue f => some (enqueue s f).2
    | .worker i => workerStep s i
    | .dtor => dtorStep s

/-- Runs a schedule from `s`. -/
def run (s : Pool) : List Action → Option Pool
  | [] => some s
  | a :: as =>
    match step s a with
    | none => none
    | some s' => run s' as

/-- The states a pool of `threads` workers can be in. -/
inductive Reachable (threads : Nat) : Pool → Prop where
  | init : Reachable threads (init threads)
  | step {s s' : Pool} (a : Action) :
      Reachable threads s → step s a = some s' → Reachable threads s'

/-! ## Observations on the history -/

/-- The task of a dequeue event. -/
def Event.dequeued? : Event → Option Nat
  | .dequeue _ t => some t
  | _ => none

/-- The task of a start event. -/
def Event.started? : Event → Option Nat
  | .start _ t => some t
  | _ => none

/-- The task of a finish event. -/
def Event.finished? : Event → Option Nat
  | .finish _ t => some t
  | _ => none

/-- The task of an abandon event. -/
def Event.abandoned? : Event → Option Nat
  | .abandon t => some t
  | _ => none

/-- The tasks in the order in which they were removed from the queue. -/
def dequeueOrder (s : Pool) : List Nat := s.log.filterMap Event.dequeued?

/-- The tasks in the order in which their `task()` calls began. -/
def startOrder (s : Pool) : List Nat := s.log.filterMap Event.started?

/-- The tasks in the order in which their `task()` calls returned. -/
def finishOrder (s : Pool) : List Nat := s.log.filterMap Event.finished?

/-- The tasks whose wrappers were destroyed in the queue, in that order. -/
def abandonOrder (s : Pool) : List Nat := s.log.filterMap Event.abandoned?

/-- The destructor has returned. -/
def Returned (s : Pool) : Prop := s.dtor = .returned

/-- The handle of task `t` is fulfilled with the outcome of its own callable. -/
def Fulfilled (s : Pool) (t : Nat) : Prop :=
  ∃ p, s.ptasks[t]? = some p ∧ p.state = some p.fn.outcome

/-- Item `a` comes before item `b` in `l`: there are positions `i < j` holding
`a` and `b`. -/
def Before (l : List Nat) (a b : Nat) : Prop :=
  ∃ i j : Nat, i < j ∧ l[i]? = some a ∧ l[j]? = some b

/-! ## Shapes of steps and invariants -/

/-- The shapes of an enabled worker step. -/
inductive WorkerMove (s : Pool) (i : Nat) : Pool → Prop where
  | begin (t : Nat) (hpc : s.workers[i]? = some (.holding t)) :
      WorkerMove s i { s with workers := s.workers.set i (.running t),
                              log := s.log ++ [.start i t] }
  | dangling (t : Nat) (hpc : s.workers[i]? = some (.running t))
      (hp : s.ptasks[t]? = none) :
      WorkerMove s i { s with fault := some .dangling }
  | uncaught (t : Nat) (p : PackagedTask) (o : Outcome)
      (hpc : s.workers[i]? = some (.running t))
      (hp : s.ptasks[t]? = some p) (hst : p.state = some o) :
      WorkerMove s i { s with fault := some .uncaught }
  | finish (t : Nat) (p : PackagedTask)
      (hpc : s.workers[i]? = some (.running t))
      (hp : s.ptasks[t]? = some p) (hst : p.state = none) :
      WorkerMove s i { s with ptasks := s.ptasks.set t { p with state := some p.fn.outcome },
                              workers := s.workers.set i .top,
                              log := s.log ++ [.finish i t] }
  | rewait (hpc : s.workers[i]? = some .top ∨ s.workers[i]? = some .waiting)
      (hstop : s.stop = false) (hq : s.tasks = []) :
      WorkerMove s i { s with workers := s.workers.set i .waiting }
  | exit (hpc : s.workers[i]? = some .top ∨ s.workers[i]? = some .waiting)
      (hstop : s.stop = true) (hq : s.tasks = []) :
      WorkerMove s i { s with workers := s.workers.set i .exited }
  | dequeue (t : Nat) (q : List Nat)
      (hpc : s.workers[i]? = some .top ∨ s.workers[i]? = some .waiting)
      (hq : s.tasks = t :: q) :
      WorkerMove s i { s with tasks := q, workers := s.workers.set i (.holding t),
                              log := s.log ++ [.dequeue i t] }

/-- Number of workers that hold task `t` and have not called it yet. -/
def held (s : Pool) (t : Nat) : Nat := s.workers.count (.holding t)

/-- Number of workers inside the call of task `t`. -/
def inFlight (s : Pool) (t : Nat) : Nat := s.workers.count (.running t)

/-- Where task `t` is: every created task is in the queue, or was dequeued
once, or was destroyed in the queue once; every dequeued task is held or was
started, every started task is running or has finished; the shared state holds
the outcome of the callable exactly when the task has finished, the
broken-promise error exactly when the task was destroyed in the queue, and is
empty otherwise. -/
structure Accounting (s : Pool) (t : Nat) : Prop where
  queued : s.tasks.count t + (dequeueOrder s).count t + (abandonOrder s).count t =
    if t < s.ptasks.length then 1 else 0
  dequeued : (dequeueOrder s).count t = held s t + (startOrder s).count t
  started : (startOrder s).count t = inFlight s t + (finishOrder s).count t
  cell : ∀ p, s.ptasks[t]? = some p →
    p.state = if (finishOrder s).count t = 0 then
        (if (abandonOrder s).count t = 0 then none else some .brokenPromise)
      else some p.fn.outcome

/-- The accounting invariant of the pool. -/
def Sound (s : Pool) : Prop := s.fault = none ∧ ∀ t, Accounting s t

/-- The shapes of an enabled destructor step. -/
inductive DtorMove (s : Pool) : Pool → Prop where
  | setStop (hd : s.dtor = .notStarted) :
      DtorMove s { s with stop := true, dtor := .stopSet }
  | notify (hd : s.dtor = .stopSet) :
      DtorMove s { s with dtor := .joining 0 }
  | join (k : Nat) (hd : s.dtor = .joining k) (hw : s.workers[k]? = some .exited) :
      DtorMove s { s with dtor := .joining (k + 1) }
  | done (k : Nat) (hd : s.dtor = .joining k) (hw : s.workers[k]? = none) :
      DtorMove s { s with dtor := .returned, tasks := [],
                          ptasks := destroyQueue s.tasks s.ptasks,
                          log := s.log ++ s.tasks.map .abandon }

/-- The shutdown invariant of a pool of `n` workers: a worker has exited only
when `stop` is set and the queue is empty, the destructor has got past a
worker only when that worker has exited, and with at least one worker no
wrapper is destroyed in the queue. -/
structure Shutdown (n : Nat) (s : Pool) : Prop where
  size : s.workers.length = n
  drained : .exited ∈ s.workers → s.stop = true ∧ s.tasks = []
  kept : 1 ≤ n → abandonOrder s = []
  joined : ∀ k, s.dtor = .joining k → ∀ j, j < k → j < n → s.workers[j]? = some .exited
  allJoined : s.dtor = .returned → ∀ j, j < n → s.workers[j]? = some .exited

/-- The queue invariant: the tasks are dequeued in the order of their creation
and the queue holds the remaining ones in that order, up to the last task
created as long as submissions are accepted. -/
structure Fifo (s : Pool) : Prop where
  queue : s.tasks = List.range' (dequeueOrder s).length s.tasks.length
  stopped : s.dtor ≠ .notStarted → s.stop = true
  total : s.stop = false → (dequeueOrder s).length + s.tasks.length = s.ptasks.length
  order : dequeueOrder s = List.range (dequeueOrder s).length

/-- The start invariant of a pool whose only worker is worker 0: the tasks are
started in the order of their creation, and at most the last dequeued task is
not started yet. -/
structure Serial (s : Pool) : Prop where
  order : startOrder s = List.range (startOrder s).length
  pending : ∀ t, s.workers = [.holding t] →
    (dequeueOrder s).length = (startOrder s).length + 1 ∧ t = (startOrder s).length
  settled : (∀ t, s.workers ≠ [.holding t]) →
    (dequeueOrder s).length = (startOrder s).length

/-! ## Concrete states and schedules -/

/-- A pool with one waiting worker whose destructor has set `stop`, with one
task still queued. -/
def stoppedPool : Pool :=
  { stop := true, tasks := [0], workers := [.waiting],
    ptasks := [{ fn := .returns 5, state := none }], dtor := .stopSet,
    fault := none, log := [] }

/-- A pool with two workers, one queued task, not stopped. -/
def openPool : Pool :=
  { stop := false, tasks := [0], workers := [.waiting, .top],
    ptasks := [{ fn := .throws 2, state := none }], dtor := .notStarted,
    fault := none, log := [] }

/-- The schedule on a pool without workers: one submission, then the whole
destructor. -/
def orphanSchedule : List Action :=
  [.enqueue (.returns 7), .dtor, .dtor, .dtor]

/-- The state `orphanSchedule` leads to from `init 0`. -/
def orphaned : Pool :=
  { stop := true, tasks := [], workers := [],
    ptasks := [{ fn := .returns 7, state := some .brokenPromise }], dtor := .returned,
    fault := none, log := [.abandon 0] }

/-- The schedule on a pool without workers: two submissions, then the whole
destructor. -/
def backlogSchedule : List Action :=
  [.enqueue (.returns 7), .enqueue (.throws 2), .dtor, .dtor, .dtor]

/-- The state of a pool without workers after two submissions, before the
destructor starts. -/
def backlog : Pool :=
  { stop := false, tasks := [0, 1], workers := [],
    ptasks := [{ fn := .returns 7, state := none }, { fn := .throws 2, state := none }],
    dtor := .notStarted, fault := none, log := [] }

/-- The state `backlogSchedule` leads to from `init 0`. -/
def discarded : Pool :=
  { stop := true, tasks := [], workers := [],
    ptasks := [{ fn := .returns 7, state := some .brokenPromise },
      { fn := .throws 2, state := some .brokenPromise }],
    dtor := .returned, fault := none, log := [.abandon 0, .abandon 1] }

/-- A schedule on a pool with one worker: one submission, the destructor up to
the join, the worker running the item and exiting, the join. -/
def drainSchedule : List Action :=
  [.enqueue (.returns 7), .dtor, .dtor, .worker 0, .worker 0, .worker 0, .worker 0,
    .dtor, .dtor]

/-- The state `drainSchedule` leads to from `init 1`. -/
def drained : Pool :=
  { stop := true, tasks := [], workers := [.exited],
    ptasks := [{ fn := .returns 7, state := some (.value 7) }], dtor := .returned,
    fault := none, log := [.dequeue 0 0, .start 0 0, .finish 0 0] }

/-- A schedule on a pool with two workers: two submissions, worker 0 pops the
first item, worker 1 pops the second and calls it, then worker 0 calls the
first. -/
def overtakeSchedule : List Action :=
  [.enqueue (.returns 10), .enqueue (.returns 11), .worker 0, .worker 1, .worker 1,
    .worker 0]

/-- The state `overtakeSchedule` leads to from `init 2`. -/
def overtaken : Pool :=
  { stop := false, tasks := [], workers := [.running 0, .running 1],
    ptasks := [{ fn := .returns 10, state := none }, { fn := .returns 11, state := none }],
    dtor := .notStarted, fault := none,
    log := [.dequeue 0 0, .dequeue 1 1, .start 1 1, .start 0 0] }

/-- A schedule on a pool with one worker that runs two items one after the
other. -/
def serialSchedule : List Action :=
  [.enqueue (.returns 10), .enqueue (.throws 11), .worker 0, .worker 0, .worker 0,
    .worker 0, .worker 0]

/-- The state `serialSchedule` leads to from `init 1`. -/
def serialRun : Pool :=
  { stop := false, tasks := [], workers := [.running 1],
    ptasks := [{ fn := .returns 10, state := some (.value 10) },
      { fn := .throws 11, state := none }],
    dtor := .notStarted, fault := none,
    log := [.dequeue 0 0, .start 0 0, .finish 0 0, .dequeue 0 1, .start 0 1] }

/-- A step label without the callable of a submission. -/
inductive ActionKind where
  | enqueue
  | worker (i : Nat)
  | dtor
  deriving DecidableEq, Repr

/-- The kind of a step. -/
def Action.kind : Action → ActionKind
  | .enqueue _ => .enqueue
  | .worker i => .worker i
  | .dtor => .dtor

/-- Two pool states that differ at most in the callables submitted and in the
outcomes stored. -/
structure Alike (s s' : Pool) : Prop where
  stop : s'.stop = s.stop
  tasks : s'.tasks = s.tasks
  workers : s'.workers = s.workers
  dtor : s'.dtor = s.dtor
  fault : s'.fault = s.fault
  log : s'.log = s.log
  size : s'.ptasks.length = s.ptasks.length

/-- A schedule with a failing item and the schedule with a succeeding item in
its place. -/
def failingSchedule : List Action :=
  [.enqueue (.throws 3), .enqueue (.returns 8), .worker 0, .worker 0, .worker 0,
    .worker 0, .worker 0, .worker 0]

/-- The schedule `failingSchedule` with the first item succeeding. -/
def succeedingSchedule : List Action :=
  [.enqueue (.returns 4), .enqueue (.returns 8), .worker 0, .worker 0, .worker 0,
    .worker 0, .worker 0, .worker 0]

/-- The state `failingSchedule` leads to from `init 1`. -/
def afterFailure : Pool :=
  { stop := false, tasks := [], workers := [.top],
    ptasks := [{ fn := .throws 3, state := some (.failure 3) },
      { fn := .returns 8, state := some (.value 8) }],
    dtor := .notStarted, fault := none,
    log := [.dequeue 0 0, .start 0 0, .finish 0 0, .dequeue 0 1, .start 0 1, .finish 0 1] }

/-- A reachable state in which worker 0 is inside the call of a failing item. -/
def failingRun : Pool :=
  { stop := false, tasks := [1], workers := [.running 0],
    ptasks := [{ fn := .throws 3, state := none }, { fn := .returns 8, state := none }],
    dtor := .notStarted, fault := none,
    log := [.dequeue 0 0, .start 0 0] }

/-! ## Basic facts on the step functions -/

theorem workerCheck_idle : workerCheck false [] = some (.rewait, []) := rfl

theorem workerCheck_done : workerCheck true [] = some (.exit, []) := rfl

theorem workerCheck_cons (stop : Bool) (t : Nat) (q : List Nat) :
    workerCheck stop (t :: q) = some (.run t, q) := by
  cases stop <;> rfl

theorem workerStep_check {s s' : Pool} {i : Nat}
    (hpc : s.workers[i]? = some .top ∨ s.workers[i]? = some .waiting)
    (h : (match workerCheck s.stop s.tasks with
      | none => some { s with fault := some .emptyFront }
      | some (.rewait, q) => some { s with tasks := q, workers := s.workers.set i .waiting }
      | some (.exit, q) => some { s with tasks := q, workers := s.workers.set i .exited }
      | some (.run t, q) =>
        some { s with tasks := q, workers := s.workers.set i (.holding t),
                      log := s.log ++ [.dequeue i t] }) = some s') :
    WorkerMove s i s' := by
  rcases hq : s.tasks with _ | ⟨t, q⟩
  · rcases Bool.eq_false_or_eq_true s.stop with hs | hs
    · have hc : workerCheck s.stop s.tasks = some (.exit, []) := by rw [hq, hs]; rfl
      rw [hc] at h
      simp only [Option.some.injEq] at h
      subst h
      rw [← hq]
      exact WorkerMove.exit hpc hs hq
    · have hc : workerCheck s.stop s.tasks = some (.rewait, []) := by rw [hq, hs]; rfl
      rw [hc] at h
      simp only [Option.some.injEq] at h
      subst h
      rw [← hq]
      exact WorkerMove.rewait hpc hs hq
  · have hc : workerCheck s.stop s.tasks = some (.run t, q) := by
      rw [hq, workerCheck_cons]
    rw [hc] at h
    simp only [Option.some.injEq] at h
    subst h
    exact WorkerMove.dequeue t q hpc hq

theorem workerStep_move {s s' : Pool} {i : Nat} (h : workerStep s i = some s') :
    WorkerMove s i s' := by
  rcases hw : s.workers[i]? with _ | pc
  · simp [workerStep, hw] at h
  · cases pc with
    | top =>
      simp only [workerStep, hw] at h
      exact workerStep_check (Or.inl hw) h
    | waiting =>
      simp only [workerStep, hw] at h
      exact workerStep_check (Or.inr hw) h
    | holding t =>
      simp only [workerStep, hw, Option.some.injEq] at h
      subst h
      exact WorkerMove.begin t hw
    | running t =>
      simp only [workerStep, hw] at h
      rcases hp : s.ptasks[t]? with _ | p
      · simp only [hp, Option.some.injEq] at h
        subst h
        exact WorkerMove.dangling t hw hp
      · rcases hst : p.state with _ | o
        · simp only [hp, PackagedTask.invoke, hst, Option.some.injEq] at h
          subst h
          exact WorkerMove.finish t p hw hp hst
        · simp only [hp, PackagedTask.invoke, hst, Option.some.injEq] at h
          subst h
          exact WorkerMove.uncaught t p o hw hp hst
    | exited => simp [workerStep, hw] at h


theorem count_set_add {α : Type} [DecidableEq α] (l : List α) (i : Nat) (a b c : α)
    (h : l[i]? = some a) :
    (l.set i b).count c + (if a = c then 1 else 0) = l.count c + (if b = c then 1 else 0) := by
  induction l generalizing i with
  | nil => simp at h
  | cons x l ih =>
    cases i with
    | zero =>
      simp only [List.getElem?_cons_zero, Option.some.injEq] at h
      subst h
      simp only [List.set_cons_zero, List.count_cons, beq_iff_eq]
      omega
    | succ i =>
      simp only [List.getElem?_cons_succ] at h
      have := ih i h
      simp only [List.set_cons_succ, List.count_cons]
      omega

theorem count_set_same {α : Type} [DecidableEq α] (l : List α) (i : Nat) (a b c : α)
    (h : l[i]? = some a) (ha : a ≠ c) (hb : b ≠ c) :
    (l.set i b).count c = l.count c := by
  have := count_set_add l i a b c h
  simpa [ha, hb] using this

@[simp] theorem dequeueOrder_mk (st : Bool) (q : List Nat) (w : List WorkerPc)
    (p : List PackagedTask) (d : DtorPc) (f : Option Fault) (l : List Event) :
    dequeueOrder ⟨st, q, w, p, d, f, l⟩ = l.filterMap Event.dequeued? := rfl

@[simp] theorem startOrder_mk (st : Bool) (q : List Nat) (w : List WorkerPc)
    (p : List PackagedTask) (d : DtorPc) (f : Option Fault) (l : List Event) :
    startOrder ⟨st, q, w, p, d, f, l⟩ = l.filterMap Event.started? := rfl

@[simp] theorem finishOrder_mk (st : Bool) (q : List Nat) (w : List WorkerPc)
    (p : List PackagedTask) (d : DtorPc) (f : Option Fault) (l : List Event) :
    finishOrder ⟨st, q, w, p, d, f, l⟩ = l.filterMap Event.finished? := rfl

@[simp] theorem abandonOrder_mk (st : Bool) (q : List Nat) (w : List WorkerPc)
    (p : List PackagedTask) (d : DtorPc) (f : Option Fault) (l : List Event) :
    abandonOrder ⟨st, q, w, p, d, f, l⟩ = l.filterMap Event.abandoned? := rfl

@[simp] theorem held_mk (st : Bool) (q : List Nat) (w : List WorkerPc)
    (p : List PackagedTask) (d : DtorPc) (f : Option Fault) (l : List Event) (t : Nat) :
    held ⟨st, q, w, p, d, f, l⟩ t = w.count (.holding t) := rfl

@[simp] theorem inFlight_mk (st : Bool) (q : List Nat) (w : List WorkerPc)
    (p : List PackagedTask) (d : DtorPc) (f : Option Fault) (l : List Event) (t : Nat) :
    inFlight ⟨st, q, w, p, d, f, l⟩ t = w.count (.running t) := rfl

theorem sound_init (n : Nat) : Sound (init n) := by
  refine ⟨rfl, fun t => ⟨?_, ?_, ?_, ?_⟩⟩
  · simp [init, dequeueOrder, abandonOrder]
  · simp [init, dequeueOrder, startOrder, held, List.count_replicate]
  · simp [init, finishOrder, startOrder, inFlight, List.count_replicate]
  · intro p hp
    simp [init] at hp

theorem enqueue_stopped (s : Pool) (f : Work) (h : s.stop = true) :
    enqueue s f = (.error stoppedMsg, s) := by
  cases s
  simp_all [enqueue]

theorem enqueue_open (s : Pool) (f : Work) (h : s.stop = false) :
    enqueue s f = (.ok ⟨s.ptasks.length⟩,
      { s with ptasks := s.ptasks ++ [{ fn := f, state := none }],
               tasks := s.tasks ++ [s.ptasks.length] }) := by
  simp [enqueue, h]

/-- A task that was never created has no history. -/
theorem Accounting.fresh {s : Pool} {t : Nat} (A : Accounting s t)
    (ht : s.ptasks.length ≤ t) :
    s.tasks.count t = 0 ∧ (dequeueOrder s).count t = 0 ∧ held s t = 0 ∧
      (startOrder s).count t = 0 ∧ inFlight s t = 0 ∧ (finishOrder s).count t = 0 ∧
      (abandonOrder s).count t = 0 := by
  have h1 := A.queued
  have h2 := A.dequeued
  have h3 := A.started
  rw [if_neg (by omega)] at h1
  omega

/-- A task in the call `task()` exists and its shared state is still empty. -/
theorem Accounting.running {s : Pool} {t : Nat} (A : Accounting s t)
    (hr : 0 < inFlight s t) :
    ∃ p, s.ptasks[t]? = some p ∧ p.state = none := by
  have h1 := A.queued
  have h2 := A.dequeued
  have h3 := A.started
  have hlt : t < s.ptasks.length := by
    by_contra hge
    have := (A.fresh (by omega)).2.2.2.2.1
    omega
  rw [if_pos hlt] at h1
  refine ⟨s.ptasks[t], List.getElem?_eq_getElem hlt, ?_⟩
  rw [A.cell _ (List.getElem?_eq_getElem hlt), if_pos (by omega), if_pos (by omega)]

theorem count_pos_of_getElem? {α : Type} [DecidableEq α] {l : List α} {i : Nat} {a : α}
    (h : l[i]? = some a) : 0 < l.count a := by
  rw [List.count_pos_iff]
  exact List.getElem?_mem h

theorem sound_enqueue {s : Pool} (f : Work) (hs : Sound s) : Sound (enqueue s f).2 := by
  rcases Bool.eq_false_or_eq_true s.stop with h | h
  · rw [enqueue_stopped s f h]
    exact hs
  · rw [enqueue_open s f h]
    refine ⟨hs.1, fun t => ?_⟩
    have A := hs.2 t
    have h1 := A.queued
    have h2 := A.dequeued
    have h3 := A.started
    refine ⟨?_, h2, h3, ?_⟩
    · simp only [dequeueOrder, abandonOrder, List.count_append, List.length_append,
        List.length_singleton, List.count_cons, List.count_nil, beq_iff_eq] at h1 ⊢
      by_cases e : s.ptasks.length = t
      · have := (A.fresh (by omega)).1
        split_ifs at h1 ⊢ <;> omega
      · split_ifs at h1 ⊢ <;> omega
    · intro p hp
      simp only at hp
      by_cases e : t < s.ptasks.length
      · rw [List.getElem?_append_left e] at hp
        exact A.cell p hp
      · obtain ⟨-, -, -, -, -, hf, ha⟩ := A.fresh (by omega)
        simp only [finishOrder, abandonOrder] at hf ha
        simp only [finishOrder, abandonOrder, hf, ha, if_true]
        rw [List.getElem?_append_right (by omega)] at hp
        by_cases e2 : t - s.ptasks.length = 0
        · simp only [e2, List.getElem?_cons_zero, Option.some.injEq] at hp
          rw [← hp]
        · obtain ⟨k, hk⟩ := Nat.exists_eq_succ_of_ne_zero e2
          simp [hk] at hp

theorem idle_ne_holding {pc : WorkerPc} (h : pc = .top ∨ pc = .waiting) (t : Nat) :
    pc ≠ .holding t ∧ pc ≠ .running t ∧ pc ≠ .exited := by
  rcases h with h | h <;> subst h <;> simp

theorem idle_pc {s : Pool} {i : Nat}
    (hpc : s.workers[i]? = some .top ∨ s.workers[i]? = some .waiting) :
    ∃ pc, s.workers[i]? = some pc ∧ (pc = .top ∨ pc = .waiting) := by
  rcases hpc with h | h
  · exact ⟨_, h, Or.inl rfl⟩
  · exact ⟨_, h, Or.inr rfl⟩

theorem sound_worker {s s' : Pool} {i : Nat} (hs : Sound s) (hm : WorkerMove s i s') :
    Sound s' := by
  obtain ⟨hf, hA⟩ := hs
  cases hm with
  | begin t0 hpc =>
    refine ⟨hf, fun t => ?_⟩
    have A := hA t
    have h1 := A.queued
    have h2 := A.dequeued
    have h3 := A.started
    have h4 := A.cell
    have c1 := count_set_add s.workers i (.holding t0) (.running t0) (.holding t) hpc
    have c2 := count_set_add s.workers i (.holding t0) (.running t0) (.running t) hpc
    simp only [dequeueOrder, startOrder, finishOrder, abandonOrder, held, inFlight] at h1 h2 h3 h4
    simp only [WorkerPc.holding.injEq, WorkerPc.running.injEq, reduceCtorEq, if_false] at c1 c2
    refine ⟨?_, ?_, ?_, ?_⟩
    · simpa [dequeueOrder, abandonOrder, Event.dequeued?, Event.abandoned?] using h1
    · simp only [dequeueOrder, startOrder, held, List.filterMap_append, List.filterMap_cons,
        List.filterMap_nil, Event.dequeued?, Event.started?, List.append_nil, List.count_append,
        List.count_cons, List.count_nil, beq_iff_eq]
      split_ifs at c1 c2 ⊢ <;> omega
    · simp only [finishOrder, startOrder, inFlight, List.filterMap_append, List.filterMap_cons,
        List.filterMap_nil, Event.finished?, Event.started?, List.append_nil, List.count_append,
        List.count_cons, List.count_nil, beq_iff_eq]
      split_ifs at c1 c2 ⊢ <;> omega
    · simpa [finishOrder, abandonOrder, Event.finished?, Event.abandoned?] using h4
  | dangling t0 hpc hp =>
    exfalso
    have hr : 0 < inFlight s t0 := count_pos_of_getElem? hpc
    obtain ⟨p, hp', -⟩ := (hA t0).running hr
    rw [hp] at hp'
    exact absurd hp' (by simp)
  | uncaught t0 p o hpc hp hst =>
    exfalso
    have hr : 0 < inFlight s t0 := count_pos_of_getElem? hpc
    obtain ⟨p', hp', hn⟩ := (hA t0).running hr
    rw [hp] at hp'
    simp only [Option.some.injEq] at hp'
    subst hp'
    rw [hst] at hn
    exact absurd hn (by simp)
  | finish t0 p hpc hp hst =>
    refine ⟨hf, fun t => ?_⟩
    have A := hA t
    have h1 := A.queued
    have h2 := A.dequeued
    have h3 := A.started
    have h4 := A.cell
    have c1 := count_set_add s.workers i (.running t0) .top (.holding t) hpc
    have c2 := count_set_add s.workers i (.running t0) .top (.running t) hpc
    simp only [dequeueOrder, startOrder, finishOrder, abandonOrder, held, inFlight] at h1 h2 h3 h4
    simp only [WorkerPc.running.injEq, reduceCtorEq, if_false] at c1 c2
    have hr : 0 < inFlight s t0 := count_pos_of_getElem? hpc
    refine ⟨?_, ?_, ?_, ?_⟩
    · simpa [dequeueOrder, abandonOrder, Event.dequeued?, Event.abandoned?] using h1
    · simp only [dequeueOrder, startOrder, held, List.filterMap_append, List.filterMap_cons,
        List.filterMap_nil, Event.dequeued?, Event.started?, List.append_nil, List.count_append,
        List.count_cons, List.count_nil, beq_iff_eq]
      omega
    · simp only [finishOrder, startOrder, inFlight, List.filterMap_append, List.filterMap_cons,
        List.filterMap_nil, Event.finished?, Event.started?, List.append_nil, List.count_append,
        List.count_cons, List.count_nil, beq_iff_eq]
      split_ifs at c2 ⊢ <;> omega
    · intro q hq
      simp only [finishOrder, abandonOrder, List.filterMap_append, List.filterMap_cons,
        List.filterMap_nil, Event.finished?, Event.abandoned?, List.append_nil,
        List.count_append, List.count_cons, List.count_nil, beq_iff_eq]
      simp only at hq
      by_cases e : t0 = t
      · subst e
        have hlt : t0 < s.ptasks.length := (List.getElem?_eq_some.mp hp).1
        rw [List.getElem?_set_self hlt] at hq
        simp only [Option.some.injEq] at hq
        subst hq
        simp
      · rw [List.getElem?_set_ne e] at hq
        have := h4 q hq
        simpa [e] using this
  | rewait hpc hstop hq =>
    obtain ⟨pc, hpc', hidle⟩ := idle_pc hpc
    refine ⟨hf, fun t => ?_⟩
    have A := hA t
    have c1 := count_set_same s.workers i pc .waiting (.holding t) hpc'
      (idle_ne_holding hidle t).1 (by simp)
    have c2 := count_set_same s.workers i pc .waiting (.running t) hpc'
      (idle_ne_holding hidle t).2.1 (by simp)
    refine ⟨A.queued, ?_, ?_, A.cell⟩
    · have := A.dequeued
      simp only [dequeueOrder, startOrder, held] at this ⊢
      omega
    · have := A.started
      simp only [finishOrder, startOrder, inFlight] at this ⊢
      omega
  | exit hpc hstop hq =>
    obtain ⟨pc, hpc', hidle⟩ := idle_pc hpc
    refine ⟨hf, fun t => ?_⟩
    have A := hA t
    have c1 := count_set_same s.workers i pc .exited (.holding t) hpc'
      (idle_ne_holding hidle t).1 (by simp)
    have c2 := count_set_same s.workers i pc .exited (.running t) hpc'
      (idle_ne_holding hidle t).2.1 (by simp)
    refine ⟨A.queued, ?_, ?_, A.cell⟩
    · have := A.dequeued
      simp only [dequeueOrder, startOrder, held] at this ⊢
      omega
    · have := A.started
      simp only [finishOrder, startOrder, inFlight] at this ⊢
      omega
  | dequeue t0 q hpc hq =>
    obtain ⟨pc, hpc', hidle⟩ := idle_pc hpc
    refine ⟨hf, fun t => ?_⟩
    have A := hA t
    have h1 := A.queued
    have h2 := A.dequeued
    have h3 := A.started
    have h4 := A.cell
    have c1 := count_set_add s.workers i pc (.holding t0) (.holding t) hpc'
    have c2 := count_set_same s.workers i pc (.holding t0) (.running t) hpc'
      (idle_ne_holding hidle t).2.1 (by simp)
    rw [if_neg (idle_ne_holding hidle t).1] at c1
    simp only [dequeueOrder, startOrder, finishOrder, abandonOrder, held, inFlight] at h1 h2 h3 h4
    simp only [WorkerPc.holding.injEq] at c1
    rw [hq] at h1
    simp only [List.count_cons, beq_iff_eq] at h1
    refine ⟨?_, ?_, ?_, ?_⟩
    · simp only [dequeueOrder, abandonOrder, List.filterMap_append, List.filterMap_cons,
        List.filterMap_nil, Event.dequeued?, Event.abandoned?, List.append_nil,
        List.count_append, List.count_cons, List.count_nil, beq_iff_eq]
      split_ifs at h1 ⊢ <;> omega
    · simp only [dequeueOrder, startOrder, held, List.filterMap_append, List.filterMap_cons,
        List.filterMap_nil, Event.dequeued?, Event.started?, List.append_nil, List.count_append,
        List.count_cons, List.count_nil, beq_iff_eq]
      split_ifs at c1 ⊢ <;> omega
    · simp only [finishOrder, startOrder, inFlight, List.filterMap_append, List.filterMap_cons,
        List.filterMap_nil, Event.finished?, Event.started?, List.append_nil, List.count_append,
        List.count_cons, List.count_nil, beq_iff_eq]
      omega
    · simpa [finishOrder, abandonOrder, Event.finished?, Event.abandoned?] using h4

theorem dtorStep_move {s s' : Pool} (h : dtorStep s = some s') : DtorMove s s' := by
  unfold dtorStep at h
  rcases hd : s.dtor with _ | _ | k | _
  · simp only [hd, Option.some.injEq] at h
    subst h
    exact DtorMove.setStop hd
  · simp only [hd, Option.some.injEq] at h
    subst h
    exact DtorMove.notify hd
  · simp only [hd] at h
    rcases hw : s.workers[k]? with _ | pc
    · simp only [hw, Option.some.injEq] at h
      subst h
      exact DtorMove.done k hd hw
    · cases pc <;> simp only [hw, Option.some.injEq, reduceCtorEq] at h
      subst h
      exact DtorMove.join k hd hw
  · simp [hd] at h

theorem abandon_abandon (p : PackagedTask) : p.abandon.abandon = p.abandon := by
  rcases hst : p.state with _ | o <;> simp [PackagedTask.abandon, hst]

theorem destroyWrapper_length (ps : List PackagedTask) (t : Nat) :
    (destroyWrapper ps t).length = ps.length := by
  unfold destroyWrapper
  split <;> simp

theorem destroyQueue_length (q : List Nat) (ps : List PackagedTask) :
    (destroyQueue q ps).length = ps.length := by
  induction q generalizing ps with
  | nil => rfl
  | cons t q ih =>
    simp only [destroyQueue, List.foldl_cons] at ih ⊢
    rw [ih, destroyWrapper_length]

theorem destroyWrapper_getElem? (ps : List PackagedTask) (t u : Nat) :
    (destroyWrapper ps t)[u]? =
      if u = t then ps[u]?.map PackagedTask.abandon else ps[u]? := by
  unfold destroyWrapper
  by_cases e : u = t
  · subst e
    rcases hp : ps[u]? with _ | p
    · simp [hp]
    · have hlt : u < ps.length := (List.getElem?_eq_some.mp hp).1
      simp [List.getElem?_set_self hlt]
  · rcases hp : ps[t]? with _ | p
    · simp [e]
    · simp [e, List.getElem?_set_ne (Ne.symm e)]

theorem destroyQueue_getElem? (q : List Nat) (ps : List PackagedTask) (u : Nat) :
    (destroyQueue q ps)[u]? =
      if u ∈ q then ps[u]?.map PackagedTask.abandon else ps[u]? := by
  induction q generalizing ps with
  | nil => simp [destroyQueue]
  | cons t q ih =>
    simp only [destroyQueue, List.foldl_cons] at ih ⊢
    rw [ih, destroyWrapper_getElem?]
    by_cases e : u = t
    · subst e
      by_cases m : u ∈ q
      · rcases ps[u]? with _ | p <;> simp [m, abandon_abandon]
      · simp [m]
    · simp [e]

theorem abandon_events (q : List Nat) :
    (q.map Event.abandon).filterMap Event.abandoned? = q ∧
      (q.map Event.abandon).filterMap Event.dequeued? = [] ∧
      (q.map Event.abandon).filterMap Event.started? = [] ∧
      (q.map Event.abandon).filterMap Event.finished? = [] := by
  induction q with
  | nil => simp
  | cons t q ih =>
    obtain ⟨h1, h2, h3, h4⟩ := ih
    simp [List.filterMap_cons, Event.abandoned?, Event.dequeued?, Event.started?,
      Event.finished?, h1, h2, h3, h4]

theorem sound_dtor {s s' : Pool} (hs : Sound s) (hm : DtorMove s s') : Sound s' := by
  obtain ⟨hf, hA⟩ := hs
  cases hm with
  | setStop hd =>
    exact ⟨hf, fun t => ⟨(hA t).queued, (hA t).dequeued, (hA t).started, (hA t).cell⟩⟩
  | notify hd =>
    exact ⟨hf, fun t => ⟨(hA t).queued, (hA t).dequeued, (hA t).started, (hA t).cell⟩⟩
  | join k hd hw =>
    exact ⟨hf, fun t => ⟨(hA t).queued, (hA t).dequeued, (hA t).started, (hA t).cell⟩⟩
  | done k hd hw =>
    refine ⟨hf, fun t => ?_⟩
    have A := hA t
    have h1 := A.queued
    have h2 := A.dequeued
    have h3 := A.started
    have h4 := A.cell
    obtain ⟨e1, e2, e3, e4⟩ := abandon_events s.tasks
    simp only [dequeueOrder, startOrder, finishOrder, abandonOrder, held, inFlight]
      at h1 h2 h3 h4
    refine ⟨?_, ?_, ?_, ?_⟩
    · simp only [dequeueOrder, abandonOrder, List.filterMap_append, e1, e2, List.append_nil,
        List.count_append, List.count_nil, destroyQueue_length]
      omega
    · simpa [dequeueOrder, startOrder, held, List.filterMap_append, e2, e3] using h2
    · simpa [finishOrder, startOrder, inFlight, List.filterMap_append, e3, e4] using h3
    · intro p hp
      simp only [finishOrder, abandonOrder, List.filterMap_append, e1, e4, List.append_nil,
        List.count_append]
      simp only [destroyQueue_getElem?] at hp
      by_cases m : t ∈ s.tasks
      · have hc : 0 < s.tasks.count t := List.count_pos_iff.mpr m
        have hle : (if t < s.ptasks.length then 1 else 0) ≤ 1 := by split_ifs <;> omega
        rw [if_pos m] at hp
        rcases hp0 : s.ptasks[t]? with _ | p0
        · simp [hp0] at hp
        · simp only [hp0, Option.map_some', Option.some.injEq] at hp
          have hst := h4 p0 hp0
          rw [if_pos (by omega), if_pos (by omega)] at hst
          subst hp
          rw [if_pos (by omega), if_neg (by omega)]
          simp [PackagedTask.abandon, hst]
      · have hc : s.tasks.count t = 0 := List.count_eq_zero.mpr m
        rw [if_neg m] at hp
        rw [hc, Nat.add_zero]
        exact h4 p hp

/-- What an enabled step is. -/
theorem step_cases {s s' : Pool} {a : Action} (h : step s a = some s') :
    s.fault = none ∧
      ((∃ f, a = .enqueue f ∧ s' = (enqueue s f).2) ∨
       (∃ i, a = .worker i ∧ WorkerMove s i s') ∨
       (a = .dtor ∧ DtorMove s s')) := by
  unfold step at h
  rcases hf : s.fault with _ | x
  · refine ⟨rfl, ?_⟩
    simp only [hf, Option.isSome_none, Bool.false_eq_true, if_false] at h
    cases a with
    | enqueue f =>
      simp only [Option.some.injEq] at h
      exact Or.inl ⟨f, rfl, h.symm⟩
    | worker i => exact Or.inr (Or.inl ⟨i, rfl, workerStep_move h⟩)
    | dtor => exact Or.inr (Or.inr ⟨rfl, dtorStep_move h⟩)
  · simp [hf] at h

theorem sound_step {s s' : Pool} {a : Action} (hs : Sound s) (h : step s a = some s') :
    Sound s' := by
  obtain ⟨-, hc⟩ := step_cases h
  rcases hc with ⟨f, -, rfl⟩ | ⟨i, -, hm⟩ | ⟨-, hm⟩
  · exact sound_enqueue f hs
  · exact sound_worker hs hm
  · exact sound_dtor hs hm

theorem reachable_sound {n : Nat} {s : Pool} (h : Reachable n s) : Sound s := by
  induction h with
  | init => exact sound_init n
  | step a _ hstep ih => exact sound_step ih hstep

theorem run_reachable {n : Nat} {s r : Pool} (as : List Action) (h : Reachable n s)
    (hr : run s as = some r) : Reachable n r := by
  induction as generalizing s with
  | nil =>
    simp only [run, Option.some.injEq] at hr
    exact hr ▸ h
  | cons a as ih =>
    simp only [run] at hr
    rcases hs : step s a with _ | s1
    · simp [hs] at hr
    · rw [hs] at hr
      exact ih (Reachable.step a h hs) hr

theorem shutdown_init (n : Nat) : Shutdown n (init n) := by
  refine ⟨by simp [init], ?_, ?_, ?_, ?_⟩
  · intro h
    simp [init, List.mem_replicate] at h
  · intro _
    simp [init, abandonOrder]
  · intro k h
    simp [init] at h
  · intro h
    simp [init] at h

/-- The pc a worker leaves in a step is not `exited`, and the other workers
keep theirs. -/
theorem WorkerMove.workers_eq {s s' : Pool} {i : Nat} (hm : WorkerMove s i s') :
    s'.fault = none →
    ∃ old new, s.workers[i]? = some old ∧ old ≠ .exited ∧ s'.workers = s.workers.set i new ∧
      (new = .exited → s.stop = true ∧ s.tasks = []) := by
  intro hf
  cases hm with
  | begin t hpc => exact ⟨_, _, hpc, by simp, rfl, by simp⟩
  | dangling t hpc hp => simp at hf
  | uncaught t p o hpc hp hst => simp at hf
  | finish t p hpc hp hst => exact ⟨_, _, hpc, by simp, rfl, by simp⟩
  | rewait hpc hstop hq =>
    obtain ⟨pc, hpc', hidle⟩ := idle_pc hpc
    exact ⟨_, _, hpc', (idle_ne_holding hidle 0).2.2, rfl, by simp⟩
  | exit hpc hstop hq =>
    obtain ⟨pc, hpc', hidle⟩ := idle_pc hpc
    exact ⟨_, _, hpc', (idle_ne_holding hidle 0).2.2, rfl, fun _ => ⟨hstop, hq⟩⟩
  | dequeue t q hpc hq =>
    obtain ⟨pc, hpc', hidle⟩ := idle_pc hpc
    exact ⟨_, _, hpc', (idle_ne_holding hidle 0).2.2, rfl, by simp⟩

/-- A worker step keeps `stop` and the destructor's pc, and can only shorten
the queue. -/
theorem WorkerMove.frame {s s' : Pool} {i : Nat} (hm : WorkerMove s i s') :
    s'.stop = s.stop ∧ s'.dtor = s.dtor ∧ (s.tasks = [] → s'.tasks = []) ∧
      s'.ptasks.length = s.ptasks.length ∧ s'.tasks.length ≤ s.tasks.length := by
  cases hm with
  | begin t hpc => simp
  | dangling t hpc hp => simp
  | uncaught t p o hpc hp hst => simp
  | finish t p hpc hp hst => simp
  | rewait hpc hstop hq => simp
  | exit hpc hstop hq => simp
  | dequeue t q hpc hq => simp [hq]

/-- A worker step destroys no queued wrapper. -/
theorem WorkerMove.abandonOrder_eq {s s' : Pool} {i : Nat} (hm : WorkerMove s i s') :
    abandonOrder s' = abandonOrder s := by
  cases hm <;> simp [abandonOrder, Event.abandoned?]

theorem exited_set {l : List WorkerPc} {i j : Nat} {old new : WorkerPc}
    (hold : l[i]? = some old) (hne : old ≠ .exited) (hj : l[j]? = some .exited) :
    (l.set i new)[j]? = some .exited := by
  have hij : i ≠ j := by
    rintro rfl
    rw [hold] at hj
    simp only [Option.some.injEq] at hj
    exact hne hj
  rw [List.getElem?_set_ne hij]
  exact hj

theorem shutdown_worker {n : Nat} {s s' : Pool} {i : Nat} (hs : Shutdown n s)
    (hm : WorkerMove s i s') (hf : s'.fault = none) : Shutdown n s' := by
  obtain ⟨old, new, hold, hne, hw, hex⟩ := hm.workers_eq hf
  obtain ⟨hstop, hdtor, hq, -, -⟩ := hm.frame
  refine ⟨?_, ?_, ?_, ?_, ?_⟩
  · rw [hw, List.length_set]
    exact hs.size
  · intro hmem
    rw [hw] at hmem
    rcases List.mem_or_eq_of_mem_set hmem with h | h
    · obtain ⟨h1, h2⟩ := hs.drained h
      exact ⟨hstop ▸ h1, hq h2⟩
    · obtain ⟨h1, h2⟩ := hex h.symm
      exact ⟨hstop ▸ h1, hq h2⟩
  · intro hn
    rw [hm.abandonOrder_eq]
    exact hs.kept hn
  · intro k hk j hjk hjn
    rw [hdtor] at hk
    rw [hw]
    exact exited_set hold hne (hs.joined k hk j hjk hjn)
  · intro hk j hjn
    rw [hdtor] at hk
    rw [hw]
    exact exited_set hold hne (hs.allJoined hk j hjn)

theorem shutdown_enqueue {n : Nat} {s : Pool} (f : Work) (hs : Shutdown n s) :
    Shutdown n (enqueue s f).2 := by
  rcases Bool.eq_false_or_eq_true s.stop with h | h
  · rw [enqueue_stopped s f h]
    exact hs
  · rw [enqueue_open s f h]
    refine ⟨hs.size, ?_, hs.kept, hs.joined, hs.allJoined⟩
    intro hmem
    have := (hs.drained hmem).1
    rw [h] at this
    exact absurd this (by simp)

theorem shutdown_dtor {n : Nat} {s s' : Pool} (hs : Shutdown n s) (hm : DtorMove s s') :
    Shutdown n s' := by
  cases hm with
  | setStop hd =>
    refine ⟨hs.size, fun hmem => ⟨rfl, (hs.drained hmem).2⟩, hs.kept, ?_, ?_⟩
    · intro k hk
      simp at hk
    · intro hk
      simp at hk
  | notify hd =>
    refine ⟨hs.size, hs.drained, hs.kept, ?_, ?_⟩
    · intro k hk j hjk
      simp only [DtorPc.joining.injEq] at hk
      omega
    · intro hk
      simp at hk
  | join k hd hw =>
    refine ⟨hs.size, hs.drained, hs.kept, ?_, ?_⟩
    · intro k' hk j hjk hjn
      simp only [DtorPc.joining.injEq] at hk
      by_cases e : j = k
      · rw [e]
        exact hw
      · exact hs.joined k hd j (by omega) hjn
    · intro hk
      simp at hk
  | done k hd hw =>
    have hlen : s.workers.length ≤ k := by
      by_contra hlt
      rw [List.getElem?_eq_getElem (by omega)] at hw
      simp at hw
    have hsize := hs.size
    refine ⟨hs.size, fun hmem => ⟨(hs.drained hmem).1, rfl⟩, ?_, ?_, ?_⟩
    · intro hn
      have h0 : WorkerPc.exited ∈ s.workers :=
        List.getElem?_mem (hs.joined k hd 0 (by omega) (by omega))
      have hq := (hs.drained h0).2
      have := hs.kept hn
      simp only [abandonOrder] at this
      simp [abandonOrder, hq, this]
    · intro k' hk
      simp at hk
    · intro _ j hjn
      exact hs.joined k hd j (by omega) hjn

theorem reachable_shutdown {n : Nat} {s : Pool} (h : Reachable n s) : Shutdown n s := by
  induction h with
  | init => exact shutdown_init n
  | step a hprev hstep ih =>
    have hsound := (sound_step (reachable_sound hprev) hstep).1
    obtain ⟨-, hc⟩ := step_cases hstep
    rcases hc with ⟨f, -, rfl⟩ | ⟨i, -, hm⟩ | ⟨-, hm⟩
    · exact shutdown_enqueue f ih
    · exact shutdown_worker ih hm hsound
    · exact shutdown_dtor ih hm

theorem fifo_init (n : Nat) : Fifo (init n) := by
  refine ⟨?_, ?_, ?_, ?_⟩ <;> simp [init, dequeueOrder]

theorem fifo_enqueue {s : Pool} (f : Work) (hs : Fifo s) : Fifo (enqueue s f).2 := by
  rcases Bool.eq_false_or_eq_true s.stop with h | h
  · rw [enqueue_stopped s f h]
    exact hs
  · rw [enqueue_open s f h]
    have h1 := hs.queue
    have h2 := hs.total h
    have h3 := hs.order
    simp only [dequeueOrder] at h1 h2 h3
    refine ⟨?_, hs.stopped, ?_, ?_⟩
    · simp only [dequeueOrder, List.length_append, List.length_singleton]
      rw [List.range'_1_concat, ← h1, h2]
    · intro _
      simp only [dequeueOrder, List.length_append, List.length_singleton]
      omega
    · simpa [dequeueOrder] using h3

theorem fifo_worker {s s' : Pool} {i : Nat} (hs : Fifo s) (hm : WorkerMove s i s') :
    Fifo s' := by
  have h1 := hs.queue
  have h2 := hs.total
  have h3 := hs.order
  have h4 := hs.stopped
  simp only [dequeueOrder] at h1 h2 h3
  cases hm with
  | begin t hpc =>
    refine ⟨?_, h4, ?_, ?_⟩ <;> simpa [dequeueOrder, Event.dequeued?]
  | dangling t hpc hp => exact ⟨hs.queue, hs.stopped, hs.total, hs.order⟩
  | uncaught t p o hpc hp hst => exact ⟨hs.queue, hs.stopped, hs.total, hs.order⟩
  | finish t p hpc hp hst =>
    refine ⟨?_, h4, ?_, ?_⟩ <;> simpa [dequeueOrder, Event.dequeued?]
  | rewait hpc hstop hq => exact ⟨hs.queue, hs.stopped, hs.total, hs.order⟩
  | exit hpc hstop hq => exact ⟨hs.queue, hs.stopped, hs.total, hs.order⟩
  | dequeue t q hpc hq =>
    rw [hq] at h1 h2
    simp only [List.length_cons] at h1 h2
    rw [List.range'_succ] at h1
    simp only [List.cons.injEq] at h1
    obtain ⟨ht, hq'⟩ := h1
    refine ⟨?_, h4, ?_, ?_⟩
    · simpa [dequeueOrder, Event.dequeued?] using hq'
    · intro hstop
      have := h2 hstop
      simp only [dequeueOrder, List.filterMap_append, List.filterMap_cons, List.filterMap_nil,
        Event.dequeued?, List.length_append, List.length_singleton]
      omega
    · simp only [dequeueOrder, List.filterMap_append, List.filterMap_cons, List.filterMap_nil,
        Event.dequeued?, List.length_append, List.length_singleton]
      rw [List.range_succ, ← h3, ht]

theorem fifo_dtor {s s' : Pool} (hs : Fifo s) (hm : DtorMove s s') : Fifo s' := by
  cases hm with
  | setStop hd =>
    refine ⟨hs.queue, fun _ => rfl, ?_, hs.order⟩
    intro h
    simp at h
  | notify hd =>
    have hst := hs.stopped (by simp [hd])
    refine ⟨hs.queue, fun _ => hst, hs.total, hs.order⟩
  | join k hd hw =>
    have hst := hs.stopped (by simp [hd])
    refine ⟨hs.queue, fun _ => hst, hs.total, hs.order⟩
  | done k hd hw =>
    have hst := hs.stopped (by simp [hd])
    have h3 := hs.order
    obtain ⟨-, e2, -, -⟩ := abandon_events s.tasks
    simp only [dequeueOrder] at h3
    refine ⟨?_, fun _ => hst, ?_, ?_⟩
    · simp
    · intro h
      simp only at h
      rw [hst] at h
      simp at h
    · simpa [dequeueOrder, List.filterMap_append, e2] using h3

theorem reachable_fifo {n : Nat} {s : Pool} (h : Reachable n s) : Fifo s := by
  induction h with
  | init => exact fifo_init n
  | step a hprev hstep ih =>
    obtain ⟨-, hc⟩ := step_cases hstep
    rcases hc with ⟨f, -, rfl⟩ | ⟨i, -, hm⟩ | ⟨-, hm⟩
    · exact fifo_enqueue f ih
    · exact fifo_worker ih hm
    · exact fifo_dtor ih hm

/-- In a list that is an initial segment of the naturals, smaller comes first. -/
theorem before_of_range {l : List Nat} (hl : l = List.range l.length) {a b : Nat}
    (hab : a < b) (hb : b ∈ l) : Before l a b := by
  rw [hl, List.mem_range] at hb
  refine ⟨a, b, hab, ?_, ?_⟩
  · rw [hl, List.getElem?_range (by omega)]
  · rw [hl, List.getElem?_range hb]

theorem single_worker {l : List WorkerPc} {i : Nat} {pc : WorkerPc} (hl : l.length = 1)
    (h : l[i]? = some pc) : i = 0 ∧ l = [pc] := by
  match l, hl with
  | [x], _ =>
    cases i with
    | zero =>
      simp only [List.getElem?_cons_zero, Option.some.injEq] at h
      exact ⟨rfl, by rw [h]⟩
    | succ k => simp at h

theorem serial_init (n : Nat) : Serial (init n) := by
  refine ⟨?_, ?_, ?_⟩
  · simp [init, startOrder]
  · intro t h
    cases n with
    | zero => simp [init] at h
    | succ k =>
      simp only [init, List.replicate_succ, List.cons.injEq, reduceCtorEq, false_and] at h
  · intro _
    simp [init, startOrder, dequeueOrder]

theorem serial_enqueue {s : Pool} (f : Work) (hs : Serial s) : Serial (enqueue s f).2 := by
  rcases Bool.eq_false_or_eq_true s.stop with h | h
  · rw [enqueue_stopped s f h]
    exact hs
  · rw [enqueue_open s f h]
    exact ⟨hs.order, hs.pending, hs.settled⟩

theorem serial_dtor {s s' : Pool} (hs : Serial s) (hm : DtorMove s s') : Serial s' := by
  cases hm with
  | setStop hd => exact ⟨hs.order, hs.pending, hs.settled⟩
  | notify hd => exact ⟨hs.order, hs.pending, hs.settled⟩
  | join k hd hw => exact ⟨hs.order, hs.pending, hs.settled⟩
  | done k hd hw =>
    have h1 := hs.order
    have h2 := hs.pending
    have h3 := hs.settled
    obtain ⟨-, e2, e3, -⟩ := abandon_events s.tasks
    simp only [dequeueOrder, startOrder] at h1 h2 h3
    refine ⟨?_, ?_, ?_⟩
    · simpa [startOrder, List.filterMap_append, e3] using h1
    · intro t ht
      simpa [dequeueOrder, startOrder, List.filterMap_append, e2, e3] using h2 t ht
    · intro hne
      simpa [dequeueOrder, startOrder, List.filterMap_append, e2, e3] using h3 hne

theorem serial_worker {s s' : Pool} {i : Nat} (hs : Serial s) (hq : Fifo s)
    (hl : s.workers.length = 1) (hm : WorkerMove s i s') : Serial s' := by
  have h1 := hs.order
  have h2 := hs.pending
  have h3 := hs.settled
  simp only [dequeueOrder, startOrder] at h1 h2 h3
  cases hm with
  | begin t hpc =>
    obtain ⟨rfl, hw⟩ := single_worker hl hpc
    obtain ⟨h4, h5⟩ := h2 t hw
    refine ⟨?_, ?_, ?_⟩
    · simp only [startOrder, List.filterMap_append, List.filterMap_cons, List.filterMap_nil,
        Event.started?, List.length_append, List.length_singleton]
      rw [List.range_succ, ← h1, h5]
    · intro u hu
      simp [hw] at hu
    · intro _
      simp only [startOrder, dequeueOrder, List.filterMap_append, List.filterMap_cons,
        List.filterMap_nil, Event.started?, Event.dequeued?, List.length_append,
        List.length_singleton, List.append_nil]
      exact h4
  | dangling t hpc hp => exact ⟨hs.order, hs.pending, hs.settled⟩
  | uncaught t p o hpc hp hst => exact ⟨hs.order, hs.pending, hs.settled⟩
  | finish t p hpc hp hst =>
    obtain ⟨rfl, hw⟩ := single_worker hl hpc
    have h6 := h3 (by simp [hw])
    refine ⟨?_, ?_, ?_⟩
    · simpa [startOrder, Event.started?] using h1
    · intro u hu
      simp [hw] at hu
    · intro _
      simpa [startOrder, dequeueOrder, Event.started?, Event.dequeued?] using h6
  | rewait hpc hstop hq' =>
    obtain ⟨pc, hpc', hidle⟩ := idle_pc hpc
    obtain ⟨rfl, hw⟩ := single_worker hl hpc'
    have h6 := h3 (by
      intro t
      rw [hw]
      simpa using (idle_ne_holding hidle t).1)
    refine ⟨hs.order, ?_, ?_⟩
    · intro u hu
      simp [hw] at hu
    · intro _
      simpa [startOrder, dequeueOrder] using h6
  | exit hpc hstop hq' =>
    obtain ⟨pc, hpc', hidle⟩ := idle_pc hpc
    obtain ⟨rfl, hw⟩ := single_worker hl hpc'
    have h6 := h3 (by
      intro t
      rw [hw]
      simpa using (idle_ne_holding hidle t).1)
    refine ⟨hs.order, ?_, ?_⟩
    · intro u hu
      simp [hw] at hu
    · intro _
      simpa [startOrder, dequeueOrder] using h6
  | dequeue t q hpc hq' =>
    obtain ⟨pc, hpc', hidle⟩ := idle_pc hpc
    obtain ⟨rfl, hw⟩ := single_worker hl hpc'
    have h6 := h3 (by
      intro t
      rw [hw]
      simpa using (idle_ne_holding hidle t).1)
    have h7 := hq.queue
    rw [hq'] at h7
    simp only [dequeueOrder, List.length_cons, List.range'_succ, List.cons.injEq] at h7
    refine ⟨?_, ?_, ?_⟩
    · simpa [startOrder, Event.started?] using h1
    · intro u hu
      simp only [hw, List.set_cons_zero, List.cons.injEq, WorkerPc.holding.injEq,
        and_true] at hu
      simp only [startOrder, dequeueOrder, List.filterMap_append, List.filterMap_cons,
        List.filterMap_nil, Event.started?, Event.dequeued?, List.length_append,
        List.length_singleton, List.append_nil]
      omega
    · intro hne
      exact absurd (by simp [hw]) (hne t)

theorem reachable_serial {s : Pool} (h : Reachable 1 s) : Serial s := by
  induction h with
  | init => exact serial_init 1
  | step a hprev hstep ih =>
    obtain ⟨-, hc⟩ := step_cases hstep
    rcases hc with ⟨f, -, rfl⟩ | ⟨i, -, hm⟩ | ⟨-, hm⟩
    · exact serial_enqueue f ih
    · exact serial_worker ih (reachable_fifo hprev) (reachable_shutdown hprev).size hm
    · exact serial_dtor ih hm

/-! ## The claims -/

/-- C2. Post-stop rejection: on every pool state with `stop` set and for every
work item, `enqueue` fails with the error "enqueue on stopped ThreadPool",
returns no future, and leaves the whole state (queue, stop flag, packaged
tasks: no handle is left behind) exactly as it was. -/
theorem enqueue_rejected_when_stopped (s : Pool) (f : Work) (h : s.stop = true) :
    (enqueue s f).1 = .error "enqueue on stopped ThreadPool" ∧
      (∀ fut, (enqueue s f).1 ≠ .ok fut) ∧
      (enqueue s f).2 = s ∧
      (enqueue s f).2.tasks = s.tasks ∧ (enqueue s f).2.stop = s.stop ∧
      (enqueue s f).2.ptasks = s.ptasks := by
  rw [enqueue_stopped s f h]
  refine ⟨rfl, ?_, rfl, rfl, rfl, rfl⟩
  intro fut hfut
  simp at hfut

theorem enqueue_rejected_when_stopped_witness :
    stoppedPool.stop = true ∧
      ((enqueue stoppedPool (.returns 9)).1 = .error "enqueue on stopped ThreadPool" ∧
        (∀ fut, (enqueue stoppedPool (.returns 9)).1 ≠ .ok fut) ∧
        (enqueue stoppedPool (.returns 9)).2 = stoppedPool ∧
        (enqueue stoppedPool (.returns 9)).2.tasks = stoppedPool.tasks ∧
        (enqueue stoppedPool (.returns 9)).2.stop = stoppedPool.stop ∧
        (enqueue stoppedPool (.returns 9)).2.ptasks = stoppedPool.ptasks) :=
  ⟨rfl, enqueue_rejected_when_stopped stoppedPool (.returns 9) rfl⟩

/-- C7. Successful submit: on every pool state with `stop` clear and for every
work item `f`, `enqueue` returns the future of a new packaged task that holds
`f` with an empty shared state; the new queue is the old queue with the wrapper
of that task appended at the back; the packaged tasks that existed, the stop
flag, the workers and the destructor's progress are unchanged. -/
theorem enqueue_accepted_when_open (s : Pool) (f : Work) (h : s.stop = false) :
    (enqueue s f).1 = .ok { task := s.ptasks.length } ∧
      (enqueue s f).2.ptasks = s.ptasks ++ [{ fn := f, state := none }] ∧
      (enqueue s f).2.ptasks[s.ptasks.length]? = some { fn := f, state := none } ∧
      (enqueue s f).2.tasks = s.tasks ++ [s.ptasks.length] ∧
      (enqueue s f).2.stop = s.stop ∧
      (enqueue s f).2.workers = s.workers ∧
      (enqueue s f).2.dtor = s.dtor ∧
      (enqueue s f).2.fault = s.fault ∧
      (enqueue s f).2.log = s.log := by
  rw [enqueue_open s f h]
  refine ⟨rfl, rfl, ?_, rfl, rfl, rfl, rfl, rfl, rfl⟩
  simp

theorem enqueue_accepted_when_open_witness :
    openPool.stop = false ∧
      ((enqueue openPool (.returns 9)).1 = .ok { task := openPool.ptasks.length } ∧
        (enqueue openPool (.returns 9)).2.ptasks =
          openPool.ptasks ++ [{ fn := .returns 9, state := none }] ∧
        (enqueue openPool (.returns 9)).2.ptasks[openPool.ptasks.length]? =
          some { fn := .returns 9, state := none } ∧
        (enqueue openPool (.returns 9)).2.tasks = openPool.tasks ++ [openPool.ptasks.length] ∧
        (enqueue openPool (.returns 9)).2.stop = openPool.stop ∧
        (enqueue openPool (.returns 9)).2.workers = openPool.workers ∧
        (enqueue openPool (.returns 9)).2.dtor = openPool.dtor ∧
        (enqueue openPool (.returns 9)).2.fault = openPool.fault ∧
        (enqueue openPool (.returns 9)).2.log = openPool.log) :=
  ⟨rfl, enqueue_accepted_when_open openPool (.returns 9) rfl⟩

/-- C8. Stop is monotone: across every enabled step (an `enqueue`, a worker
step, a destructor step) taken with `stop` set, `stop` stays set, the number
of packaged tasks ever accepted does not change and the queue does not grow. -/
theorem stop_is_monotone (s s' : Pool) (a : Action) (hstep : step s a = some s')
    (h : s.stop = true) :
    s'.stop = true ∧ s'.ptasks.length = s.ptasks.length ∧
      s'.tasks.length ≤ s.tasks.length := by
  obtain ⟨-, hc⟩ := step_cases hstep
  rcases hc with ⟨f, -, rfl⟩ | ⟨i, -, hm⟩ | ⟨-, hm⟩
  · rw [enqueue_stopped s f h]
    exact ⟨h, rfl, le_refl _⟩
  · obtain ⟨h1, -, -, h2, h3⟩ := hm.frame
    exact ⟨h1 ▸ h, h2, h3⟩
  · cases hm with
    | setStop hd => exact ⟨rfl, rfl, le_refl _⟩
    | notify hd => exact ⟨h, rfl, le_refl _⟩
    | join k hd hw => exact ⟨h, rfl, le_refl _⟩
    | done k hd hw => exact ⟨h, destroyQueue_length _ _, Nat.zero_le _⟩

theorem stop_is_monotone_witness :
    step stoppedPool (.worker 0) =
        some { stoppedPool with tasks := [], workers := [.holding 0],
                                log := [.dequeue 0 0] } ∧
      stoppedPool.stop = true ∧
      (({ stoppedPool with tasks := [], workers := [.holding 0],
                           log := [.dequeue 0 0] } : Pool).stop = true ∧
        ({ stoppedPool with tasks := [], workers := [.holding 0],
                            log := [.dequeue 0 0] } : Pool).ptasks.length =
          stoppedPool.ptasks.length ∧
        ({ stoppedPool with tasks := [], workers := [.holding 0],
                            log := [.dequeue 0 0] } : Pool).tasks.length ≤
          stoppedPool.tasks.length) :=
  ⟨rfl, rfl, stop_is_monotone stoppedPool _ (.worker 0) rfl rfl⟩

/-- C9. Worker decision function: on every observed `stop` and queue the
critical section of the worker re-waits, leaving the queue as it is, exactly
when the queue is empty and `stop` is clear; it exits exactly when the queue is
empty and `stop` is set; and on a non-empty queue, whatever `stop` is, it pops
exactly the front item, keeps the rest in order and goes on to run that item.
In the step relation a worker becomes `exited` only by a step from the top of
the loop or from the wait, taken with `stop` set and the queue empty, and a
worker that popped `t` next calls `t`. -/
theorem worker_decision (stop : Bool) (tasks : List Nat) :
    (∀ q, workerCheck stop tasks = some (.rewait, q) ↔
        (tasks = [] ∧ stop = false ∧ q = tasks)) ∧
      (∀ q, workerCheck stop tasks = some (.exit, q) ↔
        (tasks = [] ∧ stop = true ∧ q = tasks)) ∧
      (∀ t q, workerCheck stop tasks = some (.run t, q) ↔ tasks = t :: q) ∧
      (∀ (s s' : Pool) (i : Nat), workerStep s i = some s' →
        s'.workers[i]? = some .exited →
        (s.workers[i]? = some .top ∨ s.workers[i]? = some .waiting) ∧
          workerCheck s.stop s.tasks = some (.exit, s.tasks) ∧
          s.stop = true ∧ s.tasks = []) ∧
      (∀ (s : Pool) (i t : Nat), s.workers[i]? = some (.holding t) →
        workerStep s i = some { s with workers := s.workers.set i (.running t),
                                       log := s.log ++ [.start i t] }) := by
  refine ⟨?_, ?_, ?_, ?_, ?_⟩
  · intro q
    cases tasks with
    | nil => cases stop <;> simp [workerCheck, waitPredicate, exitTest, eq_comm]
    | cons t r => simp [workerCheck_cons]
  · intro q
    cases tasks with
    | nil => cases stop <;> simp [workerCheck, waitPredicate, exitTest, eq_comm]
    | cons t r => simp [workerCheck_cons]
  · intro t q
    cases tasks with
    | nil => cases stop <;> simp [workerCheck, waitPredicate, exitTest]
    | cons u r => simp [workerCheck_cons]
  · intro s s' i hstep hex
    have hm := workerStep_move hstep
    have hlt : i < s.workers.length := by
      cases hm <;> simp_all [List.getElem?_eq_some]
    cases hm with
    | begin t hpc => simp [List.getElem?_set_self hlt] at hex
    | dangling t hpc hp => simp [hpc] at hex
    | uncaught t p o hpc hp hst => simp [hpc] at hex
    | finish t p hpc hp hst => simp [List.getElem?_set_self hlt] at hex
    | rewait hpc hstop hq => simp [List.getElem?_set_self hlt] at hex
    | exit hpc hstop hq =>
      refine ⟨hpc, ?_, hstop, hq⟩
      rw [hstop, hq]
      rfl
    | dequeue t q hpc hq => simp [List.getElem?_set_self hlt] at hex
  · intro s i t hpc
    simp [workerStep, hpc]

theorem worker_decision_witness :
    (∀ q, workerCheck true [4, 5] = some (.rewait, q) ↔
        (([4, 5] : List Nat) = [] ∧ true = false ∧ q = [4, 5])) ∧
      (∀ q, workerCheck true [4, 5] = some (.exit, q) ↔
        (([4, 5] : List Nat) = [] ∧ true = true ∧ q = [4, 5])) ∧
      (∀ t q, workerCheck true [4, 5] = some (.run t, q) ↔ [4, 5] = t :: q) ∧
      (∀ (s s' : Pool) (i : Nat), workerStep s i = some s' →
        s'.workers[i]? = some .exited →
        (s.workers[i]? = some .top ∨ s.workers[i]? = some .waiting) ∧
          workerCheck s.stop s.tasks = some (.exit, s.tasks) ∧
          s.stop = true ∧ s.tasks = []) ∧
      (∀ (s : Pool) (i t : Nat), s.workers[i]? = some (.holding t) →
        workerStep s i = some { s with workers := s.workers.set i (.running t),
                                       log := s.log ++ [.start i t] }) :=
  worker_decision true [4, 5]

/-- C10. The worker never reads the front of an empty queue: whenever the wait
predicate holds and the exit test fails the queue is non-empty, so the critical
section, with `front` / `pop` partial, always has a result, and no reachable
state carries the empty-front fault. -/
theorem worker_never_reads_empty_queue :
    (∀ (stop : Bool) (tasks : List Nat), waitPredicate stop tasks = true →
        exitTest stop tasks = false → tasks ≠ [] ∧ tasks.head?.isSome = true) ∧
      (∀ (stop : Bool) (tasks : List Nat), (workerCheck stop tasks).isSome = true) ∧
      (∀ (n : Nat) (s : Pool), Reachable n s → s.fault ≠ some .emptyFront) := by
  refine ⟨?_, ?_, ?_⟩
  · intro stop tasks hw he
    cases tasks with
    | nil => cases stop <;> simp [waitPredicate, exitTest] at hw he
    | cons t q => simp
  · intro stop tasks
    cases tasks with
    | nil => cases stop <;> rfl
    | cons t q => simp [workerCheck_cons]
  · intro n s h
    rw [(reachable_sound h).1]
    simp

theorem worker_never_reads_empty_queue_witness :
    (waitPredicate true [3] = true ∧ exitTest true [3] = false ∧
        ([3] : List Nat) ≠ [] ∧ ([3] : List Nat).head?.isSome = true) ∧
      (workerCheck false []).isSome = true ∧
      (Reachable 2 (init 2) ∧ (init 2).fault ≠ some .emptyFront) :=
  ⟨⟨rfl, rfl, worker_never_reads_empty_queue.1 true [3] rfl rfl⟩,
    worker_never_reads_empty_queue.2.1 false [],
    Reachable.init, worker_never_reads_empty_queue.2.2 2 (init 2) Reachable.init⟩

theorem run_orphanSchedule : run (init 0) orphanSchedule = some orphaned := by decide

theorem run_drainSchedule : run (init 1) drainSchedule = some drained := by decide

theorem run_overtakeSchedule : run (init 2) overtakeSchedule = some overtaken := by decide

theorem run_serialSchedule : run (init 1) serialSchedule = some serialRun := by decide

theorem reachable_orphaned : Reachable 0 orphaned :=
  run_reachable orphanSchedule Reachable.init run_orphanSchedule

theorem reachable_drained : Reachable 1 drained :=
  run_reachable drainSchedule Reachable.init run_drainSchedule

theorem reachable_overtaken : Reachable 2 overtaken :=
  run_reachable overtakeSchedule Reachable.init run_overtakeSchedule

theorem reachable_serialRun : Reachable 1 serialRun :=
  run_reachable serialSchedule Reachable.init run_serialSchedule

/-- In a returned pool with at least one worker the queue is empty and no
worker holds or runs a task. -/
theorem returned_idle {n : Nat} {s : Pool} (hn : 1 ≤ n) (h : Reachable n s)
    (hr : Returned s) :
    s.tasks = [] ∧ ∀ t, held s t = 0 ∧ inFlight s t = 0 := by
  have hs := reachable_shutdown h
  have hall := hs.allJoined hr
  have hmem : ∀ pc ∈ s.workers, pc = .exited := by
    intro pc hpc
    obtain ⟨j, hj⟩ := List.mem_iff_getElem?.mp hpc
    have hlt : j < n := by
      have := (List.getElem?_eq_some.mp hj).1
      rw [hs.size] at this
      exact this
    have := hall j hlt
    rw [hj] at this
    simpa using this
  have h0 : WorkerPc.exited ∈ s.workers := List.getElem?_mem (hall 0 (by omega))
  refine ⟨(hs.drained h0).2, fun t => ⟨?_, ?_⟩⟩
  · rw [held, List.count_eq_zero]
    intro hc
    exact absurd (hmem _ hc) (by simp)
  · rw [inFlight, List.count_eq_zero]
    intro hc
    exact absurd (hmem _ hc) (by simp)

/-- In a returned pool with at least one worker every created task was
dequeued, started and finished once and its shared state holds its outcome. -/
theorem returned_done {n : Nat} {s : Pool} (hn : 1 ≤ n) (h : Reachable n s)
    (hr : Returned s) {t : Nat} (ht : t < s.ptasks.length) :
    (dequeueOrder s).count t = 1 ∧ (startOrder s).count t = 1 ∧
      (finishOrder s).count t = 1 ∧ Fulfilled s t := by
  obtain ⟨hq, hidle⟩ := returned_idle hn h hr
  have A := (reachable_sound h).2 t
  have h1 := A.queued
  have h2 := A.dequeued
  have h3 := A.started
  rw [hq, if_pos ht, (reachable_shutdown h).kept hn] at h1
  simp only [List.count_nil] at h1
  obtain ⟨h4, h5⟩ := hidle t
  refine ⟨by omega, by omega, by omega, s.ptasks[t], List.getElem?_eq_getElem ht, ?_⟩
  rw [A.cell _ (List.getElem?_eq_getElem ht), if_neg (by omega)]

/-- C1 as stated fails on a pool without workers: after one accepted
submission the destructor of a pool of 0 workers returns without the item
ever having been executed; its wrapper is destroyed with the queue and its
shared state holds the broken-promise error, not the outcome of the
callable. -/
theorem drain_fails_without_workers :
    run (init 0) orphanSchedule = some orphaned ∧ Reachable 0 orphaned ∧
      Returned orphaned ∧ 0 < orphaned.ptasks.length ∧
      0 ∉ finishOrder orphaned ∧ ¬ Fulfilled orphaned 0 := by
  refine ⟨run_orphanSchedule, reachable_orphaned, rfl, by decide, by decide, ?_⟩
  rintro ⟨p, hp, hst⟩
  simp only [orphaned, List.getElem?_cons_zero, Option.some.injEq] at hp
  subst hp
  simp [Work.outcome] at hst

/-- C1, amended. Drain-before-stop with at least one worker: for every worker
count `n ≥ 1`, in every reachable state in which the destructor has returned
the queue is empty and every accepted item has been executed (its call has
finished) and its handle is fulfilled with the outcome of its callable. -/
theorem drain_before_stop (n : Nat) (s : Pool) (hn : 1 ≤ n) (h : Reachable n s)
    (hr : Returned s) :
    s.tasks = [] ∧ ∀ t, t < s.ptasks.length → t ∈ finishOrder s ∧ Fulfilled s t := by
  refine ⟨(returned_idle hn h hr).1, fun t ht => ?_⟩
  obtain ⟨-, -, h3, h4⟩ := returned_done hn h hr ht
  refine ⟨?_, h4⟩
  rw [← List.count_pos_iff]
  omega

theorem drain_before_stop_witness :
    1 ≤ 1 ∧ Reachable 1 drained ∧ Returned drained ∧
      (drained.tasks = [] ∧
        ∀ t, t < drained.ptasks.length → t ∈ finishOrder drained ∧ Fulfilled drained t) :=
  ⟨le_refl 1, reachable_drained, rfl,
    drain_before_stop 1 drained (le_refl 1) reachable_drained rfl⟩

/-- C3. Exactly-once execution: in every reachable state, for any worker count,
no task has been dequeued, started or finished more than once and no second
write of a shared state was attempted (no fault); and in a pool with at least
one worker, once the destructor has returned every accepted task has been
dequeued, started and finished exactly once. -/
theorem exactly_once (n : Nat) (s : Pool) (h : Reachable n s) :
    (∀ t, (dequeueOrder s).count t ≤ 1 ∧ (startOrder s).count t ≤ 1 ∧
        (finishOrder s).count t ≤ 1) ∧
      s.fault = none ∧
      (1 ≤ n → Returned s → ∀ t, t < s.ptasks.length →
        (dequeueOrder s).count t = 1 ∧ (startOrder s).count t = 1 ∧
          (finishOrder s).count t = 1) := by
  refine ⟨fun t => ?_, (reachable_sound h).1, fun hn hr t ht => ?_⟩
  · have A := (reachable_sound h).2 t
    have h1 := A.queued
    have h2 := A.dequeued
    have h3 := A.started
    split_ifs at h1 <;> omega
  · obtain ⟨h1, h2, h3, -⟩ := returned_done hn h hr ht
    exact ⟨h1, h2, h3⟩

theorem exactly_once_witness :
    Reachable 1 drained ∧
      ((∀ t, (dequeueOrder drained).count t ≤ 1 ∧ (startOrder drained).count t ≤ 1 ∧
          (finishOrder drained).count t ≤ 1) ∧
        drained.fault = none ∧
        (1 ≤ 1 → Returned drained → ∀ t, t < drained.ptasks.length →
          (dequeueOrder drained).count t = 1 ∧ (startOrder drained).count t = 1 ∧
            (finishOrder drained).count t = 1)) :=
  ⟨reachable_drained, exactly_once 1 drained reachable_drained⟩

/-- C4 as stated fails with two workers: after two submissions worker 0 pops
the first item, worker 1 pops the second and calls it, and only then worker 0
calls the first: the items leave the queue in order, but the second one begins
execution first. -/
theorem start_order_fails_with_two_workers :
    run (init 2) overtakeSchedule = some overtaken ∧ Reachable 2 overtaken ∧
      dequeueOrder overtaken = [0, 1] ∧ startOrder overtaken = [1, 0] ∧
      1 ∈ startOrder overtaken ∧ ¬ Before (startOrder overtaken) 0 1 := by
  refine ⟨run_overtakeSchedule, reachable_overtaken, rfl, rfl, by decide, ?_⟩
  rintro ⟨i, j, hij, hi, hj⟩
  have e : startOrder overtaken = [1, 0] := rfl
  rw [e] at hi hj
  match i, j, hij with
  | 0, _, _ => simp at hi
  | 1, 0, h => omega
  | 1, 1, h => omega
  | 1, (k + 2), _ => simp at hj
  | (k + 2), _, _ => simp at hi

/-- C4, amended. FIFO dequeue order: for any worker count and any two items
`a`, `b` accepted in that order, in every reachable state in which `b` has left
the queue `a` has left it before `b`; and in a pool with exactly one worker, in
every reachable state in which `b` has begun execution `a` has begun before
`b`. -/
theorem fifo_order (n : Nat) (s : Pool) (a b : Nat) (h : Reachable n s) (hab : a < b) :
    (b ∈ dequeueOrder s → Before (dequeueOrder s) a b) ∧
      (n = 1 → b ∈ startOrder s → Before (startOrder s) a b) := by
  refine ⟨fun hb => before_of_range (reachable_fifo h).order hab hb, fun hn hb => ?_⟩
  subst hn
  exact before_of_range (reachable_serial h).order hab hb

theorem fifo_order_witness :
    Reachable 1 serialRun ∧ 0 < 1 ∧
      ((1 ∈ dequeueOrder serialRun → Before (dequeueOrder serialRun) 0 1) ∧
        (1 = 1 → 1 ∈ startOrder serialRun → Before (startOrder serialRun) 0 1)) :=
  ⟨reachable_serialRun, Nat.zero_lt_one,
    fifo_order 1 serialRun 0 1 reachable_serialRun Nat.zero_lt_one⟩

theorem destroyQueue_range (ps : List PackagedTask) :
    destroyQueue (List.range ps.length) ps = ps.map PackagedTask.abandon := by
  apply List.ext_getElem?
  intro u
  rw [destroyQueue_getElem?, List.getElem?_map]
  by_cases e : u < ps.length
  · rw [if_pos (List.mem_range.mpr e)]
  · rw [if_neg (by simpa using e), List.getElem?_eq_none (by omega)]
    rfl

theorem run_backlogStart : run (init 0) (backlogSchedule.take 2) = some backlog := by decide

theorem run_backlogSchedule : run (init 0) backlogSchedule = some discarded := by decide

theorem reachable_backlog : Reachable 0 backlog :=
  run_reachable (backlogSchedule.take 2) Reachable.init run_backlogStart

theorem reachable_discarded : Reachable 0 discarded :=
  run_reachable backlogSchedule Reachable.init run_backlogSchedule

/-- A pool without workers takes no worker step: its history holds no dequeue,
start or finish; until the destructor is over every accepted item is queued
with an empty shared state, and afterwards the queue is gone and every shared
state holds the broken-promise error. -/
theorem reachable_zero {s : Pool} (h : Reachable 0 s) :
    s.workers = [] ∧ s.fault = none ∧ (∀ e ∈ s.log, ∃ t, e = Event.abandon t) ∧
      (s.dtor ≠ .returned →
        (∀ p ∈ s.ptasks, p.state = none) ∧ s.tasks = List.range s.ptasks.length) ∧
      (s.dtor = .returned →
        s.tasks = [] ∧ ∀ p ∈ s.ptasks, p.state = some .brokenPromise) := by
  induction h with
  | init => simp [init]
  | step a hprev hstep ih =>
    obtain ⟨hw, hf, hl, hpre, hpost⟩ := ih
    obtain ⟨-, hc⟩ := step_cases hstep
    rcases hc with ⟨f, -, rfl⟩ | ⟨i, -, hm⟩ | ⟨-, hm⟩
    · rename_i s0
      rcases Bool.eq_false_or_eq_true s0.stop with h | h
      · rw [enqueue_stopped s0 f h]
        exact ⟨hw, hf, hl, hpre, hpost⟩
      · rw [enqueue_open s0 f h]
        have hd : s0.dtor = .notStarted := by
          by_contra hne
          have := (reachable_fifo hprev).stopped hne
          rw [h] at this
          exact absurd this (by simp)
        obtain ⟨hp, hq⟩ := hpre (by simp [hd])
        refine ⟨hw, hf, hl, fun _ => ⟨?_, ?_⟩, ?_⟩
        · intro p hmem
          simp only [List.mem_append, List.mem_singleton] at hmem
          rcases hmem with hmem | hmem
          · exact hp p hmem
          · rw [hmem]
        · simp only [List.length_append, List.length_singleton]
          rw [List.range_succ, ← hq]
        · intro hr
          simp only [hd, reduceCtorEq] at hr
    · exfalso
      cases hm <;> simp_all
    · cases hm with
      | setStop hd =>
        refine ⟨hw, hf, hl, fun _ => hpre (by simp [hd]), ?_⟩
        intro hr
        simp at hr
      | notify hd =>
        refine ⟨hw, hf, hl, fun _ => hpre (by simp [hd]), ?_⟩
        intro hr
        simp at hr
      | join k hd hk =>
        refine ⟨hw, hf, hl, fun _ => hpre (by simp [hd]), ?_⟩
        intro hr
        simp at hr
      | done k hd hk =>
        rename_i s0
        obtain ⟨hp, hq⟩ := hpre (by simp [hd])
        refine ⟨hw, hf, ?_, ?_, fun _ => ⟨rfl, ?_⟩⟩
        · intro e he
          simp only [List.mem_append, List.mem_map] at he
          rcases he with he | ⟨t, -, rfl⟩
          · exact hl e he
          · exact ⟨t, rfl⟩
        · intro hr
          simp at hr
        · intro p hmem
          simp only [hq, destroyQueue_range, List.mem_map] at hmem
          obtain ⟨p0, hp0, rfl⟩ := hmem
          simp [PackagedTask.abandon, hp p0 hp0]

/-- C6 as stated fails once the destructor is over: on a pool of 0 workers
with two accepted items the three destructor steps end with the queue
destroyed, not left in place, and with both handles ready, each holding the
broken-promise error, although no item was ever executed. -/
theorem zero_worker_queue_is_discarded :
    run (init 0) (backlogSchedule.take 2) = some backlog ∧
      run backlog [.dtor, .dtor, .dtor] = some discarded ∧
      Reachable 0 discarded ∧ Returned discarded ∧
      backlog.tasks = [0, 1] ∧ discarded.tasks = [] ∧
      discarded.ptasks[0]? = some { fn := .returns 7, state := some .brokenPromise } ∧
      discarded.ptasks[1]? = some { fn := .throws 2, state := some .brokenPromise } ∧
      startOrder discarded = [] ∧
      ¬ (∀ (t : Nat) (p : PackagedTask), discarded.ptasks[t]? = some p → p.state = none) ∧
      ¬ (discarded.tasks = backlog.tasks) := by
  refine ⟨run_backlogStart, by decide, reachable_discarded, rfl, rfl, rfl, rfl, rfl, rfl, ?_,
    by decide⟩
  intro hall
  have := hall 0 { fn := .returns 7, state := some .brokenPromise } rfl
  simp at this

/-- C6, amended. Zero-worker degeneracy: in every reachable state of a pool
constructed with 0 threads, every `enqueue` made while `stop` is clear succeeds
and lengthens the queue by exactly one; no worker step is enabled and no item
is ever dequeued, started or finished; until the destructor is over every
shared state is empty and the queue holds every accepted item; the destructor,
once it starts, runs its three steps to its return without waiting for any
other thread; and when it is over the queue has been destroyed with the pool
and every shared state holds the broken-promise error. -/
theorem zero_worker_degeneracy (s : Pool) (h : Reachable 0 s) :
    (∀ f, s.stop = false →
        (enqueue s f).1 = .ok { task := s.ptasks.length } ∧
          (enqueue s f).2.tasks.length = s.tasks.length + 1 ∧
          step s (.enqueue f) = some (enqueue s f).2) ∧
      ((∀ i, step s (.worker i) = none) ∧
        dequeueOrder s = [] ∧ startOrder s = [] ∧ finishOrder s = []) ∧
      (s.dtor ≠ .returned →
        (∀ (t : Nat) (p : PackagedTask), s.ptasks[t]? = some p → p.state = none) ∧
          s.tasks = List.range s.ptasks.length) ∧
      (s.dtor = .returned →
        s.tasks = [] ∧
          ∀ (t : Nat) (p : PackagedTask), s.ptasks[t]? = some p →
            p.state = some .brokenPromise) ∧
      (s.dtor = .notStarted →
        ∃ s', run s [.dtor, .dtor, .dtor] = some s' ∧ Returned s' ∧ s'.stop = true ∧
          s'.tasks = [] ∧ s'.ptasks = s.ptasks.map PackagedTask.abandon ∧
          ∀ (t : Nat) (p : PackagedTask), s'.ptasks[t]? = some p →
            p.state = some .brokenPromise) := by
  obtain ⟨hw, hf, hl, hpre, hpost⟩ := reachable_zero h
  have hnone : ∀ (g : Event → Option Nat), (∀ t, g (.abandon t) = none) →
      s.log.filterMap g = [] := by
    intro g hg
    rw [List.filterMap_eq_nil_iff]
    intro e he
    obtain ⟨t, rfl⟩ := hl e he
    exact hg t
  refine ⟨fun f hs => ?_, ⟨fun i => ?_, ?_, ?_, ?_⟩, fun hd => ?_, fun hd => ?_, fun hd => ?_⟩
  · rw [enqueue_open s f hs]
    refine ⟨rfl, by simp, ?_⟩
    simp [step, hf, enqueue_open s f hs]
  · simp [step, hf, workerStep, hw]
  · exact hnone _ (fun _ => rfl)
  · exact hnone _ (fun _ => rfl)
  · exact hnone _ (fun _ => rfl)
  · obtain ⟨hp, hq⟩ := hpre hd
    exact ⟨fun t p htp => hp p (List.getElem?_mem htp), hq⟩
  · obtain ⟨hq, hp⟩ := hpost hd
    exact ⟨hq, fun t p htp => hp p (List.getElem?_mem htp)⟩
  · obtain ⟨hp, hq⟩ := hpre (by simp [hd])
    refine ⟨{ s with stop := true, dtor := .returned, tasks := [],
                     ptasks := destroyQueue s.tasks s.ptasks,
                     log := s.log ++ s.tasks.map .abandon }, ?_, rfl, rfl, rfl, ?_, ?_⟩
    · simp [run, step, dtorStep, hf, hd, hw]
    · simp only [hq, destroyQueue_range]
    · intro t p htp
      simp only [hq, destroyQueue_range, List.getElem?_map] at htp
      rcases hp0 : s.ptasks[t]? with _ | p0
      · simp [hp0] at htp
      · simp only [hp0, Option.map_some', Option.some.injEq] at htp
        subst htp
        simp [PackagedTask.abandon, hp p0 (List.getElem?_mem hp0)]

theorem zero_worker_degeneracy_witness :
    Reachable 0 backlog ∧
      ((∀ f, backlog.stop = false →
          (enqueue backlog f).1 = .ok { task := backlog.ptasks.length } ∧
            (enqueue backlog f).2.tasks.length = backlog.tasks.length + 1 ∧
            step backlog (.enqueue f) = some (enqueue backlog f).2) ∧
        ((∀ i, step backlog (.worker i) = none) ∧
          dequeueOrder backlog = [] ∧ startOrder backlog = [] ∧ finishOrder backlog = []) ∧
        (backlog.dtor ≠ .returned →
          (∀ (t : Nat) (p : PackagedTask), backlog.ptasks[t]? = some p → p.state = none) ∧
            backlog.tasks = List.range backlog.ptasks.length) ∧
        (backlog.dtor = .returned →
          backlog.tasks = [] ∧
            ∀ (t : Nat) (p : PackagedTask), backlog.ptasks[t]? = some p →
              p.state = some .brokenPromise) ∧
        (backlog.dtor = .notStarted →
          ∃ s', run backlog [.dtor, .dtor, .dtor] = some s' ∧ Returned s' ∧ s'.stop = true ∧
            s'.tasks = [] ∧ s'.ptasks = backlog.ptasks.map PackagedTask.abandon ∧
            ∀ (t : Nat) (p : PackagedTask), s'.ptasks[t]? = some p →
              p.state = some .brokenPromise)) :=
  ⟨reachable_backlog, zero_worker_degeneracy backlog reachable_backlog⟩

theorem workerStep_of_move {s r : Pool} {i : Nat} (hm : WorkerMove s i r) :
    workerStep s i = some r := by
  cases hm with
  | begin t hpc => simp [workerStep, hpc]
  | dangling t hpc hp => simp [workerStep, hpc, hp]
  | uncaught t p o hpc hp hst => simp [workerStep, hpc, hp, PackagedTask.invoke, hst]
  | finish t p hpc hp hst => simp [workerStep, hpc, hp, PackagedTask.invoke, hst]
  | rewait hpc hstop hq =>
    cases s
    simp only at hstop hq hpc
    subst hstop hq
    rcases hpc with h | h <;> simp [workerStep, h, workerCheck_idle]
  | exit hpc hstop hq =>
    cases s
    simp only at hstop hq hpc
    subst hstop hq
    rcases hpc with h | h <;> simp [workerStep, h, workerCheck_done]
  | dequeue t q hpc hq =>
    rcases hpc with h | h <;> simp [workerStep, h, hq, workerCheck_cons]

theorem dtorStep_of_move {s r : Pool} (hm : DtorMove s r) : dtorStep s = some r := by
  cases hm with
  | setStop hd => simp [dtorStep, hd]
  | notify hd => simp [dtorStep, hd]
  | join k hd hw => simp [dtorStep, hd, hw]
  | done k hd hw => simp [dtorStep, hd, hw]

theorem step_worker_of_move {s r : Pool} {i : Nat} (hf : s.fault = none)
    (hm : WorkerMove s i r) : step s (.worker i) = some r := by
  simp [step, hf, workerStep_of_move hm]

theorem step_dtor_of_move {s r : Pool} (hf : s.fault = none) (hm : DtorMove s r) :
    step s .dtor = some r := by
  simp [step, hf, dtorStep_of_move hm]

theorem alike_refl (s : Pool) : Alike s s := ⟨rfl, rfl, rfl, rfl, rfl, rfl, rfl⟩

theorem alike_worker {s s' r : Pool} {i : Nat} (hs : Sound s) (hs' : Sound s')
    (hal : Alike s s') (hm : WorkerMove s i r) :
    ∃ r', WorkerMove s' i r' ∧ Alike r r' := by
  obtain ⟨e1, e2, e3, e4, e5, e6, e7⟩ := hal
  have hr := (sound_worker hs hm).1
  cases hm with
  | begin t hpc =>
    exact ⟨_, WorkerMove.begin t (e3 ▸ hpc), e1, e2, by simp [e3], e4, e5, by simp [e6],
      e7⟩
  | dangling t hpc hp => simp at hr
  | uncaught t p o hpc hp hst => simp at hr
  | finish t p hpc hp hst =>
    have hin : 0 < inFlight s' t := by
      rw [inFlight, e3]
      exact count_pos_of_getElem? hpc
    obtain ⟨p', hp', hst'⟩ := (hs'.2 t).running hin
    exact ⟨_, WorkerMove.finish t p' (e3 ▸ hpc) hp' hst', e1, e2, by simp [e3], e4, e5,
      by simp [e6], by simp [e7]⟩
  | rewait hpc hstop hq =>
    exact ⟨_, WorkerMove.rewait (e3 ▸ hpc) (e1 ▸ hstop) (e2 ▸ hq), e1, e2, by simp [e3], e4,
      e5, e6, e7⟩
  | exit hpc hstop hq =>
    exact ⟨_, WorkerMove.exit (e3 ▸ hpc) (e1 ▸ hstop) (e2 ▸ hq), e1, e2, by simp [e3], e4,
      e5, e6, e7⟩
  | dequeue t q hpc hq =>
    exact ⟨_, WorkerMove.dequeue t q (e3 ▸ hpc) (e2 ▸ hq), e1, rfl, by simp [e3], e4,
      e5, by simp [e6], e7⟩

theorem alike_dtor {s s' r : Pool} (hal : Alike s s') (hm : DtorMove s r) :
    ∃ r', DtorMove s' r' ∧ Alike r r' := by
  obtain ⟨e1, e2, e3, e4, e5, e6, e7⟩ := hal
  cases hm with
  | setStop hd =>
    exact ⟨_, DtorMove.setStop (e4 ▸ hd), rfl, e2, e3, rfl, e5, e6, e7⟩
  | notify hd =>
    exact ⟨_, DtorMove.notify (e4 ▸ hd), e1, e2, e3, rfl, e5, e6, e7⟩
  | join k hd hw =>
    exact ⟨_, DtorMove.join k (e4 ▸ hd) (e3 ▸ hw), e1, e2, e3, rfl, e5, e6, e7⟩
  | done k hd hw =>
    exact ⟨_, DtorMove.done k (e4 ▸ hd) (e3 ▸ hw), e1, rfl, e3, rfl, e5, by simp [e6, e2],
      by simp [destroyQueue_length, e7]⟩

theorem alike_enqueue {s s' : Pool} (f f' : Work) (hal : Alike s s') :
    Alike (enqueue s f).2 (enqueue s' f').2 := by
  obtain ⟨e1, e2, e3, e4, e5, e6, e7⟩ := hal
  rcases Bool.eq_false_or_eq_true s.stop with h | h
  · rw [enqueue_stopped s f h, enqueue_stopped s' f' (e1 ▸ h)]
    exact ⟨e1, e2, e3, e4, e5, e6, e7⟩
  · rw [enqueue_open s f h, enqueue_open s' f' (e1 ▸ h)]
    exact ⟨e1, by simp [e2, e7], e3, e4, e5, e6, by simp [e7]⟩

theorem alike_step {s s' r : Pool} {a a' : Action} (hs : Sound s) (hs' : Sound s')
    (hal : Alike s s') (hk : a.kind = a'.kind) (h : step s a = some r) :
    ∃ r', step s' a' = some r' ∧ Alike r r' := by
  obtain ⟨hf, hc⟩ := step_cases h
  have hf' : s'.fault = none := hs'.1
  rcases hc with ⟨f, rfl, rfl⟩ | ⟨i, rfl, hm⟩ | ⟨rfl, hm⟩
  · cases a' with
    | enqueue f' =>
      exact ⟨(enqueue s' f').2, by simp [step, hf'], alike_enqueue f f' hal⟩
    | worker j => simp [Action.kind] at hk
    | dtor => simp [Action.kind] at hk
  · cases a' with
    | enqueue f' => simp [Action.kind] at hk
    | worker j =>
      simp only [Action.kind, ActionKind.worker.injEq] at hk
      subst hk
      obtain ⟨r', hm', hal'⟩ := alike_worker hs hs' hal hm
      exact ⟨r', step_worker_of_move hf' hm', hal'⟩
    | dtor => simp [Action.kind] at hk
  · cases a' with
    | enqueue f' => simp [Action.kind] at hk
    | worker j => simp [Action.kind] at hk
    | dtor =>
      obtain ⟨r', hm', hal'⟩ := alike_dtor hal hm
      exact ⟨r', step_dtor_of_move hf' hm', hal'⟩

theorem alike_run {n : Nat} {s s' r : Pool} (as as' : List Action)
    (hr : Reachable n s) (hr' : Reachable n s') (hal : Alike s s')
    (hk : as.map Action.kind = as'.map Action.kind) (h : run s as = some r) :
    ∃ r', run s' as' = some r' ∧ Alike r r' := by
  induction as generalizing s s' as' with
  | nil =>
    cases as' with
    | nil =>
      simp only [run, Option.some.injEq] at h
      subst h
      exact ⟨s', rfl, hal⟩
    | cons b bs => simp at hk
  | cons a as ih =>
    cases as' with
    | nil => simp at hk
    | cons b bs =>
      simp only [List.map_cons, List.cons.injEq] at hk
      simp only [run] at h
      rcases hstep : step s a with _ | s1
      · simp [hstep] at h
      · rw [hstep] at h
        obtain ⟨s1', hstep', hal1⟩ :=
          alike_step (reachable_sound hr) (reachable_sound hr') hal hk.1 hstep
        obtain ⟨r', hrun', halr⟩ :=
          ih bs (Reachable.step a hr hstep) (Reachable.step b hr' hstep') hal1 hk.2 h
        refine ⟨r', ?_, halr⟩
        simp only [run, hstep']
        exact hrun'

/-- In a reachable state what the shared state of a task holds is determined
by the callable of the task and by whether the task has finished or was
destroyed in the queue. -/
theorem alike_outcome {n : Nat} {r r' : Pool} (hr : Reachable n r) (hr' : Reachable n r')
    (hal : Alike r r') {t : Nat} {p p' : PackagedTask} (hp : r.ptasks[t]? = some p)
    (hp' : r'.ptasks[t]? = some p') :
    p'.state.isSome = p.state.isSome ∧ (p'.fn = p.fn → p'.state = p.state) := by
  have h1 := ((reachable_sound hr).2 t).cell p hp
  have h2 := ((reachable_sound hr').2 t).cell p' hp'
  have hlog : finishOrder r' = finishOrder r := by
    simp only [finishOrder, hal.log]
  have hlog' : abandonOrder r' = abandonOrder r := by
    simp only [abandonOrder, hal.log]
  rw [hlog, hlog'] at h2
  rw [h1, h2]
  by_cases e : (finishOrder r).count t = 0
  · simp [e]
  · simp only [e, if_false, Option.isSome_some, true_and]
    intro hfn
    rw [hfn]

theorem run_failingSchedule : run (init 1) failingSchedule = some afterFailure := by decide

theorem run_failingStart : run (init 1) (failingSchedule.take 4) = some failingRun := by
  decide

theorem reachable_failingRun : Reachable 1 failingRun :=
  run_reachable (failingSchedule.take 4) Reachable.init run_failingStart

/-- C5. Failure isolation.  (1) In every reachable state, the step of a worker
that is inside the call of task `t` is enabled and is a return to the top of
the loop: it stores the outcome of the callable of `t` in the shared state of
`t` alone, sets no fault, and changes neither the other workers nor the queue,
the stop flag or the other packaged tasks; this is the same step whether the
callable returns or throws, and for a callable that throws `e` the outcome
stored is the failure `e`.  (2) Two schedules from the same initial pool that
differ only in the callables submitted (so also: one callable failing instead
of succeeding) are enabled together and lead to states with the same queue,
workers, stop flag, destructor progress and history, in which every task has a
fulfilled handle in one state exactly when it has in the other, and every task
whose callable is the same in both holds the same outcome. -/
theorem failure_isolation :
    (∀ (n : Nat) (s : Pool) (i t : Nat) (p : PackagedTask), Reachable n s →
        s.workers[i]? = some (.running t) → s.ptasks[t]? = some p →
        ∃ s', step s (.worker i) = some s' ∧
          s'.workers = s.workers.set i .top ∧ s'.workers[i]? = some .top ∧
          s'.ptasks[t]? = some { fn := p.fn, state := some p.fn.outcome } ∧
          (∀ u, u ≠ t → s'.ptasks[u]? = s.ptasks[u]?) ∧
          s'.fault = none ∧ s'.stop = s.stop ∧ s'.tasks = s.tasks ∧ s'.dtor = s.dtor) ∧
      (∀ e, Work.outcome (.throws e) = .failure e) ∧
      (∀ (n : Nat) (as as' : List Action) (r : Pool),
        as.map Action.kind = as'.map Action.kind → run (init n) as = some r →
        ∃ r', run (init n) as' = some r' ∧
          r'.stop = r.stop ∧ r'.tasks = r.tasks ∧ r'.workers = r.workers ∧
          r'.dtor = r.dtor ∧ r'.fault = none ∧ r'.log = r.log ∧
          r'.ptasks.length = r.ptasks.length ∧
          ∀ (t : Nat) (p p' : PackagedTask), r.ptasks[t]? = some p →
            r'.ptasks[t]? = some p' →
            p'.state.isSome = p.state.isSome ∧ (p'.fn = p.fn → p'.state = p.state)) := by
  refine ⟨?_, fun e => rfl, ?_⟩
  · intro n s i t p hr hpc hp
    have hs := reachable_sound hr
    have hin : 0 < inFlight s t := count_pos_of_getElem? hpc
    obtain ⟨p0, hp0, hst⟩ := (hs.2 t).running hin
    rw [hp] at hp0
    simp only [Option.some.injEq] at hp0
    subst hp0
    have hm := WorkerMove.finish t p hpc hp hst
    have hlt : i < s.workers.length := (List.getElem?_eq_some.mp hpc).1
    have hlt' : t < s.ptasks.length := (List.getElem?_eq_some.mp hp).1
    refine ⟨_, step_worker_of_move hs.1 hm, rfl, ?_, ?_, ?_, hs.1, rfl, rfl, rfl⟩
    · simp [List.getElem?_set_self hlt]
    · simp [List.getElem?_set_self hlt']
    · intro u hu
      simp [List.getElem?_set_ne (Ne.symm hu)]
  · intro n as as' r hk hrun
    obtain ⟨r', hrun', hal⟩ :=
      alike_run as as' Reachable.init Reachable.init (alike_refl (init n)) hk hrun
    have hr := run_reachable as Reachable.init hrun
    have hr' := run_reachable as' Reachable.init hrun'
    refine ⟨r', hrun', hal.stop, hal.tasks, hal.workers, hal.dtor, (reachable_sound hr').1,
      hal.log, hal.size, ?_⟩
    intro t p p' hp hp'
    exact alike_outcome hr hr' hal hp hp'

theorem failure_isolation_witness :
    (Reachable 1 failingRun ∧ failingRun.workers[0]? = some (.running 0) ∧
      failingRun.ptasks[0]? = some { fn := .throws 3, state := none } ∧
      ∃ s', step failingRun (.worker 0) = some s' ∧
        s'.workers = failingRun.workers.set 0 .top ∧ s'.workers[0]? = some .top ∧
        s'.ptasks[0]? = some { fn := .throws 3, state := some (Work.throws 3).outcome } ∧
        (∀ u, u ≠ 0 → s'.ptasks[u]? = failingRun.ptasks[u]?) ∧
        s'.fault = none ∧ s'.stop = failingRun.stop ∧ s'.tasks = failingRun.tasks ∧
        s'.dtor = failingRun.dtor) ∧
      Work.outcome (.throws 3) = .failure 3 ∧
      (failingSchedule.map Action.kind = succeedingSchedule.map Action.kind ∧
        run (init 1) failingSchedule = some afterFailure ∧
        ∃ r', run (init 1) succeedingSchedule = some r' ∧
          r'.stop = afterFailure.stop ∧ r'.tasks = afterFailure.tasks ∧
          r'.workers = afterFailure.workers ∧
          r'.dtor = afterFailure.dtor ∧ r'.fault = none ∧ r'.log = afterFailure.log ∧
          r'.ptasks.length = afterFailure.ptasks.length ∧
          ∀ (t : Nat) (p p' : PackagedTask), afterFailure.ptasks[t]? = some p →
            r'.ptasks[t]? = some p' →
            p'.state.isSome = p.state.isSome ∧ (p'.fn = p.fn → p'.state = p.state)) :=
  ⟨⟨reachable_failingRun, rfl, rfl,
      failure_isolation.1 1 failingRun 0 0 { fn := .throws 3, state := none }
        reachable_failingRun rfl rfl⟩,
    failure_isolation.2.1 3,
    by decide, run_failingSchedule,
    failure_isolation.2.2 1 failingSchedule succeedingSchedule afterFailure (by decide)
      run_failingSchedule⟩

end ThreadPool
